import Mathlib

/-!
Verification of the remediation-orchestration core: a shallow embedding of
the repository's `CircuitBreaker`, `RetryPolicy`, `StateMachine`,
`WorkflowOrchestrator`, `OrchestrationEngine` and `TaskQueue` components,
with theorems settling the specification's claims about them.

Conventions of the embedding:
- machine floats (`time.time()` values, delays) are rationals (`ℚ`);
- `datetime.utcnow()` timestamps in the task queue are `Nat` Unix seconds,
  passed explicitly as a `now` argument to each operation;
- `uuid4` task ids are modelled as fresh numbers drawn from a counter;
- fallible paths (Python exceptions) are `Option`/`Except` results;
- randomness (`random.uniform(0.8, 1.2)`) is an explicit argument.
-/

namespace Orch

/-! ## CircuitBreaker (src/orchestration_engine.py, lines 110-159) -/

inductive BreakerState where
  | closed
  | opened
  | halfOpen
deriving DecidableEq, Repr

/-- Embeds the `CircuitBreaker` object's fields; `state` strings
"closed"/"open"/"half_open" become `BreakerState`. Defaults are the
constructor defaults. -/
structure CircuitBreaker where
  failure_threshold : Nat := 5
  success_threshold : Nat := 2
  timeout : ℚ := 60
  failure_count : Nat := 0
  success_count : Nat := 0
  last_failure_time : Option ℚ := none
  state : BreakerState := .closed
deriving DecidableEq, Repr

/-- `CircuitBreaker.record_success`: only acts in the half-open state. -/
def record_success (cb : CircuitBreaker) : CircuitBreaker :=
  if cb.state = .halfOpen then
    let cb' := { cb with success_count := cb.success_count + 1 }
    if cb'.success_count ≥ cb'.success_threshold then
      { cb' with state := .closed, failure_count := 0, success_count := 0 }
    else
      cb'
  else
    cb

/-- `CircuitBreaker.record_failure`: increments the count, stamps the time,
and opens once the count reaches the threshold. `now` is `time.time()`. -/
def record_failure (cb : CircuitBreaker) (now : ℚ) : CircuitBreaker :=
  let cb' := { cb with
    failure_count := cb.failure_count + 1,
    last_failure_time := some now }
  if cb'.failure_count ≥ cb'.failure_threshold then
    { cb' with state := .opened }
  else
    cb'

/-- `CircuitBreaker.can_attempt`: returns the boolean and the (possibly
mutated) breaker. `none` models the `TypeError` Python would raise when
subtracting a `None` `last_failure_time` in the open state. -/
def can_attempt (cb : CircuitBreaker) (now : ℚ) :
    Option (Bool × CircuitBreaker) :=
  match cb.state with
  | .closed => some (true, cb)
  | .opened =>
    match cb.last_failure_time with
    | none => none
    | some t =>
      if now - t > cb.timeout then
        some (true, { cb with state := .halfOpen, success_count := 0 })
      else
        some (false, cb)
  | .halfOpen => some (true, cb)

/-- A recorded-call event against a breaker: a success, or a failure at a
given `time.time()` instant. -/
inductive BreakerEvent where
  | success
  | failure (t : ℚ)
deriving DecidableEq, Repr

def applyEvent (cb : CircuitBreaker) : BreakerEvent → CircuitBreaker
  | .success => record_success cb
  | .failure t => record_failure cb t

def applyEvents (cb : CircuitBreaker) : List BreakerEvent → CircuitBreaker
  | [] => cb
  | e :: es => applyEvents (applyEvent cb e) es

def countFailures : List BreakerEvent → Nat
  | [] => 0
  | .success :: es => countFailures es
  | .failure _ :: es => countFailures es + 1

/-- Folding `record_failure` over a list of failure times. -/
def recordFailures (cb : CircuitBreaker) (ts : List ℚ) : CircuitBreaker :=
  ts.foldl record_failure cb

theorem record_success_closed (cb : CircuitBreaker)
    (h : cb.state = .closed) : record_success cb = cb := by
  simp [record_success, h]

theorem record_success_opened (cb : CircuitBreaker)
    (h : cb.state = .opened) : record_success cb = cb := by
  simp [record_success, h]

theorem record_failure_count (cb : CircuitBreaker) (now : ℚ) :
    (record_failure cb now).failure_count = cb.failure_count + 1 := by
  simp only [record_failure]
  split <;> rfl

theorem record_failure_lft (cb : CircuitBreaker) (now : ℚ) :
    (record_failure cb now).last_failure_time = some now := by
  simp only [record_failure]
  split <;> rfl

theorem record_failure_timeout (cb : CircuitBreaker) (now : ℚ) :
    (record_failure cb now).timeout = cb.timeout := by
  simp only [record_failure]
  split <;> rfl

theorem record_failure_threshold (cb : CircuitBreaker) (now : ℚ) :
    (record_failure cb now).failure_threshold = cb.failure_threshold := by
  simp only [record_failure]
  split <;> rfl

/-- Once the count after a `record_failure` reaches the threshold, the
breaker is open. -/
theorem record_failure_opens (cb : CircuitBreaker) (now : ℚ)
    (h : cb.failure_threshold ≤ cb.failure_count + 1) :
    (record_failure cb now).state = .opened := by
  simp [record_failure, h]

/-- The open state is absorbing for `record_failure`. -/
theorem record_failure_opened (cb : CircuitBreaker) (now : ℚ)
    (h : cb.state = .opened) : (record_failure cb now).state = .opened := by
  simp only [record_failure]
  split
  · rfl
  · simpa using h

/-- The open state is absorbing under arbitrary success/failure events. -/
theorem applyEvents_opened (es : List BreakerEvent) :
    ∀ cb : CircuitBreaker, cb.state = .opened →
      (applyEvents cb es).state = .opened := by
  induction es with
  | nil => intro cb h; simpa [applyEvents] using h
  | cons e es ih =>
    intro cb h
    cases e with
    | success =>
      simpa [applyEvents, applyEvent, record_success_opened cb h] using
        ih cb h
    | failure t =>
      exact ih _ (record_failure_opened cb t h)

/-- From a closed breaker, once the total number of recorded failures in an
event list (plus any already-accumulated count) reaches the threshold, the
final state is open — successes interleaved among the failures are ignored
while closed. -/
theorem applyEvents_opens (es : List BreakerEvent) :
    ∀ cb : CircuitBreaker, cb.state = .closed →
      1 ≤ countFailures es →
      cb.failure_threshold ≤ cb.failure_count + countFailures es →
      (applyEvents cb es).state = .opened := by
  induction es with
  | nil => intro cb _ h1 _; exact absurd h1 (by simp [countFailures])
  | cons e es ih =>
    intro cb hc h1 h2
    cases e with
    | success =>
      rw [applyEvents, applyEvent, record_success_closed cb hc]
      exact ih cb hc (by simpa [countFailures] using h1)
        (by simpa [countFailures] using h2)
    | failure t =>
      rw [applyEvents, applyEvent]
      by_cases hth : cb.failure_threshold ≤ cb.failure_count + 1
      · exact applyEvents_opened es _ (record_failure_opens cb t hth)
      · have hstate : (record_failure cb t).state = .closed := by
          simp only [record_failure]
          rw [if_neg hth]
          simpa using hc
        have hcf : (record_failure cb t).failure_count = cb.failure_count + 1 :=
          record_failure_count cb t
        have h1' : 1 ≤ countFailures es := by
          by_contra hno
          have h0 : countFailures es = 0 := by omega
          simp only [countFailures, h0] at h2
          omega
        refine ih _ hstate h1' ?_
        rw [hcf, record_failure_threshold]
        simp only [countFailures] at h2
        omega

theorem recordFailures_lft (ts : List ℚ) (h : ts ≠ []) :
    ∀ cb : CircuitBreaker,
      (recordFailures cb ts).last_failure_time = some (ts.getLast h) := by
  induction ts with
  | nil => exact absurd rfl h
  | cons t ts ih =>
    intro cb
    cases ts with
    | nil => simp [recordFailures, List.getLast, record_failure_lft]
    | cons t' ts' =>
      have := ih (by simp) (record_failure cb t)
      simpa [recordFailures, List.getLast] using this

theorem recordFailures_count (ts : List ℚ) :
    ∀ cb : CircuitBreaker,
      (recordFailures cb ts).failure_count = cb.failure_count + ts.length := by
  induction ts with
  | nil => intro cb; simp [recordFailures]
  | cons t ts ih =>
    intro cb
    have := ih (record_failure cb t)
    simp only [recordFailures, List.foldl] at this ⊢
    rw [this, record_failure_count]
    simp [List.length]
    omega

theorem recordFailures_timeout (ts : List ℚ) :
    ∀ cb : CircuitBreaker, (recordFailures cb ts).timeout = cb.timeout := by
  induction ts with
  | nil => intro cb; simp [recordFailures]
  | cons t ts ih =>
    intro cb
    have := ih (record_failure cb t)
    simp only [recordFailures, List.foldl] at this ⊢
    rw [this, record_failure_timeout]

theorem recordFailures_threshold (ts : List ℚ) :
    ∀ cb : CircuitBreaker,
      (recordFailures cb ts).failure_threshold = cb.failure_threshold := by
  induction ts with
  | nil => intro cb; simp [recordFailures]
  | cons t ts ih =>
    intro cb
    have := ih (record_failure cb t)
    simp only [recordFailures, List.foldl] at this ⊢
    rw [this, record_failure_threshold]

/-- A nonempty run of `record_failure` calls whose final count reaches the
threshold leaves the breaker open. -/
theorem recordFailures_opens (ts : List ℚ) (h : ts ≠ [])
    (cb : CircuitBreaker)
    (hth : cb.failure_threshold ≤ cb.failure_count + ts.length) :
    (recordFailures cb ts).state = .opened := by
  induction ts generalizing cb with
  | nil => exact absurd rfl h
  | cons t ts ih =>
    cases ts with
    | nil =>
      simp only [recordFailures, List.foldl]
      exact record_failure_opens cb t (by simpa using hth)
    | cons t' ts' =>
      by_cases hx : cb.failure_threshold ≤ cb.failure_count + 1
      · have hop := record_failure_opens cb t hx
        have : ∀ us : List ℚ, ∀ c : CircuitBreaker, c.state = .opened →
            (recordFailures c us).state = .opened := by
          intro us
          induction us with
          | nil => intro c hc; simpa [recordFailures] using hc
          | cons u us ihu =>
            intro c hc
            exact ihu _ (record_failure_opened c u hc)
        exact this (t' :: ts') (record_failure cb t) hop
      · refine ih (by simp) (record_failure cb t) ?_
        rw [record_failure_count, record_failure_threshold]
        simp only [List.length] at hth ⊢
        omega

/-! ## RetryPolicy.get_delay (src/orchestration_engine.py, lines 81-107) -/

/-- Embeds the `RetryPolicy` constructor parameters (defaults are the
Python defaults). -/
structure RetryPolicy where
  max_retries : Nat := 3
  initial_delay : ℚ := 1
  max_delay : ℚ := 60
  exponential_base : ℚ := 2
  jitter : Bool := true
deriving DecidableEq, Repr

/-- `RetryPolicy.get_delay`. The `random.uniform(0.8, 1.2)` sample is the
explicit argument `j`. -/
def get_delay (rp : RetryPolicy) (attempt : Nat) (j : ℚ) : ℚ :=
  let delay := min (rp.initial_delay * rp.exponential_base ^ attempt)
    rp.max_delay
  if rp.jitter then delay * j else delay

theorem get_delay_base_mono (rp : RetryPolicy) (n : Nat)
    (h0 : 0 ≤ rp.initial_delay) (h1 : 1 ≤ rp.exponential_base) :
    min (rp.initial_delay * rp.exponential_base ^ n) rp.max_delay ≤
      min (rp.initial_delay * rp.exponential_base ^ (n + 1)) rp.max_delay := by
  have hpow : rp.exponential_base ^ n ≤ rp.exponential_base ^ (n + 1) :=
    pow_le_pow_right₀ h1 (Nat.le_succ n)
  exact min_le_min (mul_le_mul_of_nonneg_left hpow h0) le_rfl

theorem get_delay_base_nonneg (rp : RetryPolicy) (n : Nat)
    (h0 : 0 ≤ rp.initial_delay) (h1 : 1 ≤ rp.exponential_base)
    (h2 : 0 ≤ rp.max_delay) :
    0 ≤ min (rp.initial_delay * rp.exponential_base ^ n) rp.max_delay :=
  le_min (mul_nonneg h0 (pow_nonneg (le_trans zero_le_one h1) n)) h2

/-- The breaker produced by `can_attempt` when the open-state timeout has
elapsed: half-open with a zeroed success count. -/
def toHalfOpen (cb : CircuitBreaker) : CircuitBreaker :=
  { cb with state := .halfOpen, success_count := 0 }

theorem can_attempt_halfOpen (cb : CircuitBreaker) (now : ℚ)
    (h : cb.state = .halfOpen) : can_attempt cb now = some (true, cb) := by
  simp [can_attempt, h]

/-- C10: while the breaker is CLOSED, `record_success` leaves every field
unchanged (it only acts when half-open), so the breaker opens once
`failure_threshold` failures in total have been recorded since it last
closed, even when successes are interleaved between the failures. -/
theorem claim_C10 :
    (∀ cb : CircuitBreaker, cb.state = .closed → record_success cb = cb) ∧
    (∀ (cb : CircuitBreaker) (es : List BreakerEvent),
      cb.state = .closed → 1 ≤ countFailures es →
      cb.failure_threshold ≤ cb.failure_count + countFailures es →
      (applyEvents cb es).state = .opened) :=
  ⟨record_success_closed, fun cb es h0 h1 h2 => applyEvents_opens es cb h0 h1 h2⟩

/-- Witness for C10: the default breaker (threshold 5) opens after five
failures interleaved with successes, and `record_success` is the identity
on it while closed. -/
theorem claim_C10_witness :
    record_success { } = ({ } : CircuitBreaker) ∧
    (applyEvents { } [.failure 1, .success, .failure 2, .success,
      .failure 3, .failure 4, .failure 5]).state = .opened :=
  ⟨claim_C10.1 { } rfl,
   claim_C10.2 { } [.failure 1, .success, .failure 2, .success,
      .failure 3, .failure 4, .failure 5] rfl (by decide) (by decide)⟩

/-- C6 counterexample: with `failure_threshold = 1` and `timeout = 60`, a
failure at time 0 opens the breaker; at time 61 a `can_attempt` call
returns true and transitions to HALF_OPEN, but — contrary to the claim
that "exactly one can_attempt() call returns true" — the next
`can_attempt` call returns true as well. -/
theorem claim_C6_counterexample :
    (record_failure { failure_threshold := 1 } 0).state = .opened ∧
    can_attempt (record_failure { failure_threshold := 1 } 0) 61 =
      some (true, toHalfOpen (record_failure { failure_threshold := 1 } 0)) ∧
    can_attempt (toHalfOpen (record_failure { failure_threshold := 1 } 0)) 61 =
      some (true, toHalfOpen (record_failure { failure_threshold := 1 } 0)) := by
  have hrf : record_failure { failure_threshold := 1 } 0 =
      { failure_threshold := 1, failure_count := 1,
        last_failure_time := some 0, state := .opened } := by
    simp [record_failure]
  rw [hrf]
  refine ⟨rfl, ?_, ?_⟩
  · have hq : (61 : ℚ) - 0 > 60 := by norm_num
    simp [can_attempt, toHalfOpen, hq]
    norm_num
  · simp [can_attempt, toHalfOpen]

/-- C6 amended: after `failure_threshold` consecutive `record_failure`
calls from the CLOSED state the breaker is OPEN with the last failure
time stamped; `can_attempt` returns false until timeout seconds have
strictly elapsed since the last failure; once elapsed, a `can_attempt`
call returns true and transitions to HALF_OPEN (only that one call
performs the transition, but subsequent calls while HALF_OPEN also
return true); a `record_failure` issued while HALF_OPEN immediately
returns the breaker to OPEN and resets the timeout clock. -/
theorem claim_C6_amended (cb : CircuitBreaker) (ts : List ℚ) (now now2 : ℚ)
    (_h0 : cb.state = .closed) (h1 : ts ≠ [])
    (h2 : cb.failure_threshold ≤ cb.failure_count + ts.length) :
    (recordFailures cb ts).state = .opened ∧
    (recordFailures cb ts).last_failure_time = some (ts.getLast h1) ∧
    (now - ts.getLast h1 ≤ cb.timeout →
      can_attempt (recordFailures cb ts) now =
        some (false, recordFailures cb ts)) ∧
    (now - ts.getLast h1 > cb.timeout →
      can_attempt (recordFailures cb ts) now =
        some (true, toHalfOpen (recordFailures cb ts))) ∧
    can_attempt (toHalfOpen (recordFailures cb ts)) now2 =
      some (true, toHalfOpen (recordFailures cb ts)) ∧
    (record_failure (toHalfOpen (recordFailures cb ts)) now2).state = .opened ∧
    (record_failure (toHalfOpen (recordFailures cb ts)) now2).last_failure_time
      = some now2 := by
  have hstate : (recordFailures cb ts).state = .opened :=
    recordFailures_opens ts h1 cb h2
  have hlft : (recordFailures cb ts).last_failure_time =
      some (ts.getLast h1) := recordFailures_lft ts h1 cb
  have hto : (recordFailures cb ts).timeout = cb.timeout :=
    recordFailures_timeout ts cb
  refine ⟨hstate, hlft, ?_, ?_, ?_, ?_, record_failure_lft _ now2⟩
  · intro hle
    simp [can_attempt, hstate, hlft, hto, not_lt.mpr hle]
  · intro hgt
    simp [can_attempt, hstate, hlft, hto, hgt, toHalfOpen]
  · exact can_attempt_halfOpen _ now2 rfl
  · refine record_failure_opens _ now2 ?_
    have hcount : (recordFailures cb ts).failure_count =
        cb.failure_count + ts.length := recordFailures_count ts cb
    have hthr : (recordFailures cb ts).failure_threshold =
        cb.failure_threshold := recordFailures_threshold ts cb
    simp only [toHalfOpen, hcount, hthr]
    omega

/-- Witness for C6 amended: threshold-2 breaker, failures at times 1 and
2, probed at times 63 (after timeout) and 70. -/
theorem claim_C6_amended_witness :
    (recordFailures { failure_threshold := 1 } [2]).state = .opened ∧
    (recordFailures { failure_threshold := 1 } [2]).last_failure_time =
      some 2 ∧
    ((63 : ℚ) - 2 ≤ (60 : ℚ) →
      can_attempt (recordFailures { failure_threshold := 1 } [2]) 63 =
        some (false, recordFailures { failure_threshold := 1 } [2])) ∧
    ((63 : ℚ) - 2 > (60 : ℚ) →
      can_attempt (recordFailures { failure_threshold := 1 } [2]) 63 =
        some (true, toHalfOpen (recordFailures { failure_threshold := 1 } [2]))) ∧
    can_attempt (toHalfOpen (recordFailures { failure_threshold := 1 } [2])) 70 =
      some (true, toHalfOpen (recordFailures { failure_threshold := 1 } [2])) ∧
    (record_failure
      (toHalfOpen (recordFailures { failure_threshold := 1 } [2])) 70).state =
      .opened ∧
    (record_failure
      (toHalfOpen (recordFailures { failure_threshold := 1 } [2]))
        70).last_failure_time = some 70 :=
  claim_C6_amended { failure_threshold := 1 } [2] 63 70 rfl
    (by simp) (by simp)

/-- C8 counterexample: with the default policy (initial 1, base 2, max 60,
jitter on) and legal jitter samples 1.2 and 0.8 (both within
`[0.8, 1.2]`), `get_delay 7 < get_delay 6`: the jittered delay is not
non-decreasing in the attempt number. -/
theorem claim_C8_counterexample :
    ((4 : ℚ)/5 ≥ 4/5 ∧ (4 : ℚ)/5 ≤ 6/5) ∧
    ((6 : ℚ)/5 ≥ 4/5 ∧ (6 : ℚ)/5 ≤ 6/5) ∧
    get_delay { } 6 (6/5) = 72 ∧
    get_delay { } 7 (4/5) = 48 ∧
    get_delay { } 7 (4/5) < get_delay { } 6 (6/5) := by
  have h6 : get_delay { } 6 (6/5) = 72 := by
    norm_num [get_delay, min_def]
  have h7 : get_delay { } 7 (4/5) = 48 := by
    norm_num [get_delay, min_def]
  refine ⟨by norm_num, by norm_num, h6, h7, ?_⟩
  rw [h6, h7]
  norm_num

/-- C8 amended: `get_delay(n)` equals `min(initial_delay × base^n,
max_delay)` multiplied, when jitter is enabled, by the sampled factor in
`[0.8, 1.2]`; with jitter disabled it is non-decreasing in `n` and
bounded by `max_delay`; in every case its value never exceeds
`max_delay × 1.2` — but with jitter enabled consecutive values need not
be non-decreasing. -/
theorem claim_C8_amended (rp : RetryPolicy) (n : Nat) (j : ℚ)
    (h0 : 0 ≤ rp.initial_delay) (h1 : 1 ≤ rp.exponential_base)
    (h2 : 0 ≤ rp.max_delay) (hj1 : 4/5 ≤ j) (hj2 : j ≤ 6/5) :
    (rp.jitter = true →
      get_delay rp n j =
        min (rp.initial_delay * rp.exponential_base ^ n) rp.max_delay * j) ∧
    (rp.jitter = false → get_delay rp n j ≤ get_delay rp (n + 1) j) ∧
    (rp.jitter = false → get_delay rp n j ≤ rp.max_delay) ∧
    get_delay rp n j ≤ rp.max_delay * (6/5) := by
  have hbase := get_delay_base_nonneg rp n h0 h1 h2
  have hminle : min (rp.initial_delay * rp.exponential_base ^ n) rp.max_delay ≤
      rp.max_delay := min_le_right _ _
  refine ⟨fun hj => by simp [get_delay, hj], fun hj => ?_, fun hj => ?_, ?_⟩
  · simpa [get_delay, hj] using get_delay_base_mono rp n h0 h1
  · simp only [get_delay, hj, if_false, Bool.false_eq_true]
    exact hminle
  · by_cases hj : rp.jitter
    · have : min (rp.initial_delay * rp.exponential_base ^ n) rp.max_delay * j ≤
          rp.max_delay * (6/5) :=
        mul_le_mul hminle hj2 (le_trans (by norm_num) hj1) h2
      simpa [get_delay, hj] using this
    · have : rp.max_delay ≤ rp.max_delay * (6/5) := by nlinarith
      simp only [get_delay, if_neg hj]
      exact le_trans hminle this

/-- Witness for C8 amended: the default policy at attempt 0 with jitter
sample 1. -/
theorem claim_C8_amended_witness :
    (({ } : RetryPolicy).jitter = true →
      get_delay { } 0 1 =
        min (({ } : RetryPolicy).initial_delay *
          ({ } : RetryPolicy).exponential_base ^ 0)
            ({ } : RetryPolicy).max_delay * 1) ∧
    (({ } : RetryPolicy).jitter = false →
      get_delay { } 0 1 ≤ get_delay { } 1 1) ∧
    (({ } : RetryPolicy).jitter = false →
      get_delay { } 0 1 ≤ ({ } : RetryPolicy).max_delay) ∧
    get_delay { } 0 1 ≤ ({ } : RetryPolicy).max_delay * (6/5) :=
  claim_C8_amended { } 0 1 (by norm_num) (by norm_num) (by norm_num)
    (by norm_num) (by norm_num)

/-! ## CaseStateMachine (src/state_machine.py) -/

inductive CaseState where
  | PENDING
  | INVESTIGATING
  | VALIDATING
  | REMEDIATING
  | RESOLVED
  | FAILED
  | CANCELLED
deriving DecidableEq, Repr

/-- The fixed adjacency table `StateMachine.VALID_TRANSITIONS`. -/
def VALID_TRANSITIONS : CaseState → List CaseState
  | .PENDING => [.INVESTIGATING, .CANCELLED]
  | .INVESTIGATING => [.VALIDATING, .FAILED, .CANCELLED]
  | .VALIDATING => [.REMEDIATING, .FAILED, .CANCELLED]
  | .REMEDIATING => [.RESOLVED, .FAILED, .CANCELLED]
  | .RESOLVED => []
  | .FAILED => []
  | .CANCELLED => []

structure StateTransition where
  from_state : CaseState
  to_state : CaseState
  timestamp : Nat
  reason : String
  metadata : List (String × String)
deriving DecidableEq, Repr

/-- The per-case machine. Registered entry handlers are modelled as
opaque may-raise actions: `state_handlers s` lists, per handler
registered for state `s`, whether invoking it raises. The source invokes
each handler inside its own `try/except` and only logs a raised
exception, so a handler outcome cannot alter the machine's fields or the
value `transition` returns. -/
structure StateMachine where
  case_id : String
  current_state : CaseState
  transitions : List StateTransition
  state_handlers : CaseState → List Bool
  created_at : Nat

/-- `StateMachine._is_valid_transition`. -/
def _is_valid_transition (from_state to_state : CaseState) : Bool :=
  to_state ∈ VALID_TRANSITIONS from_state

/-- `StateMachine.is_terminal`. -/
def is_terminal (m : StateMachine) : Bool :=
  m.current_state ∈ [CaseState.RESOLVED, CaseState.FAILED, CaseState.CANCELLED]

/-- `StateMachine.transition` (lines 65-107): validates against the
adjacency table; on failure returns `false` with the machine untouched;
on success appends one `StateTransition`, updates the state, and runs
the registered handlers with every exception caught. -/
def transition (m : StateMachine) (new_state : CaseState) (reason : String)
    (metadata : List (String × String)) (now : Nat) : Bool × StateMachine :=
  if _is_valid_transition m.current_state new_state then
    let m' := { m with
      transitions := m.transitions ++
        [{ from_state := m.current_state, to_state := new_state,
           timestamp := now, reason := reason, metadata := metadata }],
      current_state := new_state }
    -- each handler runs in its own try/except: raised exceptions
    -- (`state_handlers new_state` flags) are caught and logged only
    (true, m')
  else
    (false, m)

theorem is_terminal_no_valid (m : StateMachine) (h : is_terminal m = true) :
    VALID_TRANSITIONS m.current_state = [] := by
  have : m.current_state = .RESOLVED ∨ m.current_state = .FAILED ∨
      m.current_state = .CANCELLED := by
    simpa [is_terminal] using h
  rcases this with h' | h' | h' <;> simp [h', VALID_TRANSITIONS]

/-- C7: from a terminal state — and in general for any pair absent from
the adjacency table — `transition` returns false and leaves the history
and current state unchanged (it is a total function: it never raises);
a valid transition appends exactly one `StateTransition` record and
returns true for every configuration of registered handlers, including
raising ones. -/
theorem claim_C7 (m : StateMachine) (ns : CaseState) (r : String)
    (md : List (String × String)) (now : Nat) :
    (is_terminal m = true → transition m ns r md now = (false, m)) ∧
    (_is_valid_transition m.current_state ns = false →
      transition m ns r md now = (false, m)) ∧
    (_is_valid_transition m.current_state ns = true →
      transition m ns r md now =
        (true, { m with
          transitions := m.transitions ++
            [{ from_state := m.current_state, to_state := ns,
               timestamp := now, reason := r, metadata := md }],
          current_state := ns })) := by
  refine ⟨fun ht => ?_, fun hv => ?_, fun hv => ?_⟩
  · have hempty := is_terminal_no_valid m ht
    simp [transition, _is_valid_transition, hempty]
  · simp [transition, hv]
  · simp [transition, hv]

/-- Witness for C7: a RESOLVED machine rejects a transition to PENDING
unchanged; a PENDING machine with a raising handler registered for
INVESTIGATING still transitions successfully, appending one record. -/
theorem claim_C7_witness :
    (transition
      { case_id := "c1", current_state := .RESOLVED, transitions := [],
        state_handlers := fun _ => [true], created_at := 0 }
      CaseState.PENDING "r" [] 5 =
      (false,
        { case_id := "c1", current_state := .RESOLVED, transitions := [],
          state_handlers := fun _ => [true], created_at := 0 })) ∧
    (transition
      { case_id := "c2", current_state := .PENDING, transitions := [],
        state_handlers := fun _ => [true], created_at := 0 }
      CaseState.INVESTIGATING "go" [] 7 =
      (true,
        { case_id := "c2", current_state := .INVESTIGATING,
          transitions := [⟨.PENDING, .INVESTIGATING, 7, "go", []⟩],
          state_handlers := fun _ => [true], created_at := 0 })) :=
  ⟨(claim_C7 _ CaseState.PENDING "r" [] 5).1 (by decide),
   (claim_C7 _ CaseState.INVESTIGATING "go" [] 7).2.2 (by decide)⟩

/-! ## OrchestrationEngine.process_alert (src/orchestration_engine.py)

The source file as committed does not import: the `async def
_fetch_predictive_propositions_with_retry` on line 262 is indented inside
`_fetch_predictive_propositions` with its body at the same indentation
level as the `def` itself, an `IndentationError`. The definitions below
embed the evident intended control flow of that method and of
`process_alert`, which the surrounding code and tests call as methods of
`OrchestrationEngine`. -/

inductive AlertType where
  | CI_FAILURE
  | SPAM_INCIDENT
  | SCAM_INCIDENT
  | SECURITY_ALERT
deriving DecidableEq, Repr

def AlertType.value : AlertType → String
  | .CI_FAILURE => "ci_failure"
  | .SPAM_INCIDENT => "spam_incident"
  | .SCAM_INCIDENT => "scam_incident"
  | .SECURITY_ALERT => "security_alert"

structure Alert where
  id : String
  type : AlertType
  description : String
  severity : String
  timestamp : String
  source : String
  metadata : List (String × String)
deriving DecidableEq, Repr

structure PredictiveProposition where
  id : String
  title : String
  description : String
  action_type : String
  parameters : List (String × String)
  confidence_score : ℚ
  estimated_impact : String
  priority : Nat
deriving DecidableEq, Repr

/-- Outcome of one HTTP POST to the predictive service: a response with a
status code and (already parsed) action list, or a raised exception. -/
inductive FetchOutcome where
  | response (status_code : Nat) (actions : List PredictiveProposition)
  | exn (msg : String)
deriving DecidableEq, Repr

/-- `OrchestrationEngine._fetch_predictive_propositions`: the parsed
actions on a 200 response, `[]` on any other status code, and `[]` when
any exception is raised (the whole body sits in a `try/except Exception`
that returns `[]`). -/
def fetch_predictive_propositions (o : FetchOutcome) :
    List PredictiveProposition :=
  match o with
  | .response 200 actions => actions
  | .response _ _ => []
  | .exn _ => []

/-- `_fetch_predictive_propositions_with_retry` (intended control flow):
consult the breaker's `can_attempt` — when it returns false, degrade to
`[]`; otherwise run `for attempt in range(max_retries)`, each iteration
calling the base fetch. Because the base fetch catches every exception
internally and returns a list, the loop's first iteration always
returns (recording a breaker success) and its `except` arms are
unreachable; when `max_retries = 0` the loop body never runs and the
final graceful-degradation `return []` is reached. `attempts n` is the
HTTP outcome the n-th attempt would observe. The `none` result
propagates `can_attempt`'s `TypeError` path. -/
def fetch_with_retry (rp : RetryPolicy) (cb : CircuitBreaker) (now : ℚ)
    (attempts : Nat → FetchOutcome) :
    Option (List PredictiveProposition × CircuitBreaker) :=
  match can_attempt cb now with
  | none => none
  | some (can, cb1) =>
    if can = false then
      some ([], cb1)
    else if rp.max_retries = 0 then
      some ([], cb1)
    else
      some (fetch_predictive_propositions (attempts 0), record_success cb1)

structure ProcessAlertResult where
  request_id : String
  alert_id : String
  alert_type : String
  status : String
  propositions : List PredictiveProposition
  proposition_count : Nat
  timestamp : String
deriving DecidableEq, Repr

/-- Upsert into the `active_alerts` dict (keyed by alert id). -/
def registerAlert (active : List (String × Alert)) (a : Alert) :
    List (String × Alert) :=
  if active.any (fun p => p.1 = a.id) then
    active.map (fun p => if p.1 = a.id then (a.id, a) else p)
  else
    active ++ [(a.id, a)]

/-- `OrchestrationEngine.process_alert` (intended control flow):
registers the alert as active, fetches propositions through a fresh
default `RetryPolicy(max_retries := 3)` and default `CircuitBreaker`,
and returns the result dict with `status := "processed"`. `request_id`
stands for the generated `uuid4`, `ts` for `utcnow().isoformat()`. -/
def process_alert (active : List (String × Alert)) (alert : Alert)
    (request_id : String) (now : ℚ) (attempts : Nat → FetchOutcome)
    (ts : String) :
    Option (ProcessAlertResult × List (String × Alert)) :=
  let active' := registerAlert active alert
  let rp : RetryPolicy :=
    { max_retries := 3, initial_delay := 1, exponential_base := 2,
      jitter := true }
  match fetch_with_retry rp { } now attempts with
  | none => none
  | some (props, _) =>
    some ({ request_id := request_id, alert_id := alert.id,
            alert_type := alert.type.value, status := "processed",
            propositions := props, proposition_count := props.length,
            timestamp := ts }, active')

/-- C2 (intended behavior of the mis-indented source): `process_alert`
always produces a result marked `"processed"` — the proposition fetch
cannot raise out of it — and `fetch_with_retry` degrades to an empty
proposition list whenever the breaker is open and its timeout has not
elapsed. -/
theorem claim_C2 :
    (∀ (active : List (String × Alert)) (alert : Alert)
      (request_id : String) (now : ℚ) (attempts : Nat → FetchOutcome)
      (ts : String),
      ∃ r active', process_alert active alert request_id now attempts ts =
        some (r, active') ∧ r.status = "processed" ∧
        r.proposition_count = r.propositions.length ∧
        r.alert_id = alert.id) ∧
    (∀ (rp : RetryPolicy) (cb : CircuitBreaker) (now t : ℚ)
      (attempts : Nat → FetchOutcome),
      cb.state = .opened → cb.last_failure_time = some t →
      now - t ≤ cb.timeout →
      fetch_with_retry rp cb now attempts = some ([], cb)) := by
  constructor
  · intro active alert request_id now attempts ts
    refine ⟨{ request_id := request_id,
              alert_id := alert.id,
              alert_type := alert.type.value,
              status := "processed",
              propositions := fetch_predictive_propositions (attempts 0),
              proposition_count :=
                (fetch_predictive_propositions (attempts 0)).length,
              timestamp := ts },
            registerAlert active alert, ?_, rfl, rfl, rfl⟩
    simp [process_alert, fetch_with_retry, can_attempt, record_success]
  · intro rp cb now t attempts hst hlft hle
    simp [fetch_with_retry, can_attempt, hst, hlft, not_lt.mpr hle]

/-- Witness for C2: a concrete CI-failure alert processed against a
service that always raises, and an open breaker that forces the empty
degradation list. -/
theorem claim_C2_witness :
    (∃ r active',
      process_alert []
        { id := "a1", type := .CI_FAILURE, description := "build failed",
          severity := "high", timestamp := "t0", source := "ci",
          metadata := [] }
        "req1" 0 (fun _ => .exn "connection refused") "t1" =
        some (r, active') ∧ r.status = "processed" ∧
        r.proposition_count = r.propositions.length ∧ r.alert_id = "a1") ∧
    fetch_with_retry { } { state := .opened, last_failure_time := some 0 }
      30 (fun _ => .exn "down") =
      some ([], { state := .opened, last_failure_time := some 0 }) :=
  ⟨claim_C2.1 []
    { id := "a1", type := .CI_FAILURE, description := "build failed",
      severity := "high", timestamp := "t0", source := "ci",
      metadata := [] } "req1" 0 (fun _ => .exn "connection refused") "t1",
   claim_C2.2 { } { state := .opened, last_failure_time := some 0 } 30 0
    (fun _ => .exn "down") rfl rfl (by norm_num)⟩

/-! ## WorkflowOrchestrator._topological_sort
(src/workflow_orchestrator.py, lines 164-183)

The graph is the workflow's step dict reduced to `(id, depends_on)`
pairs in declaration (insertion) order. The Python `visit` recursion is
unbounded; the embedding takes a fuel argument, with `none` standing for
the uncontrolled behaviors (a `KeyError` on a dependency id absent from
the dict, or unbounded recursion on a cyclic graph). For acyclic, closed
graphs any fuel exceeding every rank returns `some`. -/

abbrev StepGraph := List (String × List String)

/-- `workflow.steps[step_id].depends_on`, as a partial lookup. -/
def lookupDeps (g : StepGraph) (sid : String) : Option (List String) :=
  (g.find? (fun p => p.1 = sid)).map (fun p => p.2)

/-- The mutable `visited` set and post-order `order` list of
`_topological_sort`. -/
structure TopoState where
  visited : List String
  order : List String
deriving DecidableEq, Repr

/-- The `for dep_id in step.depends_on: visit(dep_id)` loop. -/
def visitDeps (v : String → TopoState → Option TopoState) :
    List String → TopoState → Option TopoState
  | [], st => some st
  | d :: ds, st =>
    match v d st with
    | none => none
    | some st' => visitDeps v ds st'

/-- The inner `visit`: return if already visited, mark visited, visit the
dependencies, then post-order append. -/
def visit (g : StepGraph) : Nat → String → TopoState → Option TopoState
  | 0, _, _ => none
  | fuel + 1, sid, st =>
    if sid ∈ st.visited then some st
    else
      match lookupDeps g sid with
      | none => none
      | some deps =>
        match visitDeps (visit g fuel) deps
            { st with visited := sid :: st.visited } with
        | none => none
        | some st2 => some { st2 with order := st2.order ++ [sid] }

/-- `_topological_sort`: visit every step id in declaration order, return
the accumulated post-order. -/
def _topological_sort (g : StepGraph) (fuel : Nat) : Option (List String) :=
  (visitDeps (visit g fuel) (g.map Prod.fst) ⟨[], []⟩).map TopoState.order

/-- Acyclicity certificate: a rank function strictly decreasing along
`depends_on` edges. A finite graph admits one exactly when it is
acyclic. -/
def Ranked (g : StepGraph) (rank : String → Nat) : Prop :=
  ∀ p ∈ g, ∀ d ∈ p.2, rank d < rank p.1

/-- Every dependency of a declared step is itself a declared step (the
source raises `KeyError` otherwise). -/
def ClosedGraph (g : StepGraph) : Prop :=
  ∀ p ∈ g, ∀ d ∈ p.2, (lookupDeps g d).isSome = true

/-- A dependency-respecting order: every element's dependencies appear
strictly before it. -/
def Ordered (g : StepGraph) (ord : List String) : Prop :=
  ∀ pre x post, ord = pre ++ x :: post →
    ∀ ds, lookupDeps g x = some ds → ∀ d ∈ ds, d ∈ pre

theorem Ordered.nil (g : StepGraph) : Ordered g [] := by
  intro pre x post h
  exact absurd h (by simp)

theorem Ordered.push (g : StepGraph) (l : List String) (x : String)
    (h : Ordered g l)
    (hx : ∀ ds, lookupDeps g x = some ds → ∀ d ∈ ds, d ∈ l) :
    Ordered g (l ++ [x]) := by
  intro pre y post heq ds hds d hd
  rcases List.append_eq_append_iff.mp heq with ⟨a', ha1, ha2⟩ | ⟨c', hc1, hc2⟩
  · cases a' with
    | nil =>
      simp only [List.nil_append] at ha2
      obtain ⟨rfl, rfl⟩ : x = y ∧ ([] : List String) = post := by
        simpa using ha2
      simp only [List.append_nil] at ha1
      subst ha1
      exact hx ds hds d hd
    | cons a0 a'' =>
      exfalso
      have := congrArg List.length ha2
      simp at this
  · cases c' with
    | nil =>
      simp only [List.append_nil] at hc1
      obtain ⟨rfl, rfl⟩ : y = x ∧ post = ([] : List String) := by
        simpa using hc2
      subst hc1
      exact hx ds hds d hd
    | cons c0 c'' =>
      simp only [List.cons_append] at hc2
      obtain ⟨rfl, rfl⟩ : y = c0 ∧ post = c'' ++ [x] := by
        simpa using hc2
      exact h pre y c'' hc1 ds hds d hd

/-- The running invariant of the sort state: the order is a subset of the
visited set, has no duplicates, respects dependencies, and every visited
node is a declared step. -/
def TopoInv (g : StepGraph) (st : TopoState) : Prop :=
  (∀ x ∈ st.order, x ∈ st.visited) ∧
  st.order.Nodup ∧
  Ordered g st.order ∧
  (∀ x ∈ st.visited, (lookupDeps g x).isSome = true)

/-- How a (list of) visit call(s) changes the state: the visited set and
order only grow, and the pending set — visited but not yet ordered,
exactly the depth-first stack — is unchanged. -/
def VisitGrows (st st' : TopoState) : Prop :=
  (∀ x ∈ st.visited, x ∈ st'.visited) ∧
  (∀ x ∈ st.order, x ∈ st'.order) ∧
  (∀ x, (x ∈ st'.visited ∧ x ∉ st'.order) ↔ (x ∈ st.visited ∧ x ∉ st.order))

theorem VisitGrows.refl (st : TopoState) : VisitGrows st st :=
  ⟨fun _ h => h, fun _ h => h, fun _ => Iff.rfl⟩

theorem VisitGrows.trans {a b c : TopoState} (h1 : VisitGrows a b)
    (h2 : VisitGrows b c) : VisitGrows a c :=
  ⟨fun x hx => h2.1 x (h1.1 x hx), fun x hx => h2.2.1 x (h1.2.1 x hx),
   fun x => (h2.2.2 x).trans (h1.2.2 x)⟩

theorem lookupDeps_mem {g : StepGraph} {sid : String} {ds : List String}
    (h : lookupDeps g sid = some ds) : (sid, ds) ∈ g := by
  unfold lookupDeps at h
  cases hf : g.find? (fun p => p.1 = sid) with
  | none => rw [hf] at h; simp at h
  | some p =>
    rw [hf] at h
    simp only [Option.map_some', Option.some.injEq] at h
    have hp := List.mem_of_find?_eq_some hf
    have hps := List.find?_some hf
    have h1 : p.1 = sid := by simpa using hps
    have : p = (sid, ds) := by
      cases p
      simp only [Prod.mk.injEq]
      exact ⟨h1, h⟩
    rwa [← this]

theorem mem_ids_of_lookup {g : StepGraph} {sid : String}
    (h : (lookupDeps g sid).isSome = true) : sid ∈ g.map Prod.fst := by
  obtain ⟨ds, hds⟩ := Option.isSome_iff_exists.mp h
  exact List.mem_map.mpr ⟨(sid, ds), lookupDeps_mem hds, rfl⟩

theorem lookup_isSome_of_mem_ids {g : StepGraph} {sid : String}
    (h : sid ∈ g.map Prod.fst) : (lookupDeps g sid).isSome = true := by
  obtain ⟨p, hp, rfl⟩ := List.mem_map.mp h
  have : (g.find? (fun q => q.1 = p.1)).isSome = true :=
    List.find?_isSome.mpr ⟨p, hp, by simp⟩
  simpa [lookupDeps] using this

/-- One pass of the dependency loop: if a specification for `visit` at
fuel `f` holds, the loop preserves the invariants and ends with every
listed dependency in the order. `r` separates the pending nodes (rank at
least `r`) from the listed dependencies (rank below `r`). -/
theorem visitDeps_spec (g : StepGraph) (rank : String → Nat) (f : Nat)
    (ihf : ∀ (sid : String) (st : TopoState),
      (lookupDeps g sid).isSome = true → rank sid < f → TopoInv g st →
      (∀ x ∈ st.visited, x ∉ st.order → rank sid < rank x) →
      ∃ st', visit g f sid st = some st' ∧ TopoInv g st' ∧
        VisitGrows st st' ∧ sid ∈ st'.order)
    (r : Nat) (hrf : r ≤ f) :
    ∀ (ds : List String) (stc : TopoState),
      (∀ d ∈ ds, rank d < r) →
      (∀ d ∈ ds, (lookupDeps g d).isSome = true) →
      TopoInv g stc →
      (∀ x ∈ stc.visited, x ∉ stc.order → r ≤ rank x) →
      ∃ st2, visitDeps (visit g f) ds stc = some st2 ∧ TopoInv g st2 ∧
        VisitGrows stc st2 ∧ (∀ d ∈ ds, d ∈ st2.order) := by
  intro ds
  induction ds with
  | nil =>
    intro stc _ _ hinv _
    exact ⟨stc, rfl, hinv, VisitGrows.refl stc, by simp⟩
  | cons d ds ih =>
    intro stc hrk hsm hinv hpend
    have hd_rank : rank d < r := hrk d (by simp)
    obtain ⟨st', hv, hinv', hgrow', hd_in⟩ :=
      ihf d stc (hsm d (by simp)) (lt_of_lt_of_le hd_rank hrf) hinv
        (fun x hx hno => lt_of_lt_of_le hd_rank (hpend x hx hno))
    have hpend' : ∀ x ∈ st'.visited, x ∉ st'.order → r ≤ rank x := by
      intro x hx hno
      have hm := (hgrow'.2.2 x).mp ⟨hx, hno⟩
      exact hpend x hm.1 hm.2
    obtain ⟨st2, hrun, hinv2, hgrow2, hall⟩ :=
      ih st' (fun e he => hrk e (by simp [he]))
        (fun e he => hsm e (by simp [he])) hinv' hpend'
    refine ⟨st2, ?_, hinv2, VisitGrows.trans hgrow' hgrow2, ?_⟩
    · simp [visitDeps, hv, hrun]
    · intro e he
      rcases List.mem_cons.mp he with rfl | he'
      · exact hgrow2.2.1 e hd_in
      · exact hall e he'

/-- The specification of `visit`: on an acyclic closed graph, with fuel
exceeding the node's rank, the call succeeds, preserves the invariants,
changes no pending node, and ends with the node in the order. -/
theorem visit_spec (g : StepGraph) (rank : String → Nat)
    (hrank : Ranked g rank) (hclosed : ClosedGraph g) :
    ∀ (fuel : Nat) (sid : String) (st : TopoState),
      (lookupDeps g sid).isSome = true → rank sid < fuel → TopoInv g st →
      (∀ x ∈ st.visited, x ∉ st.order → rank sid < rank x) →
      ∃ st', visit g fuel sid st = some st' ∧ TopoInv g st' ∧
        VisitGrows st st' ∧ sid ∈ st'.order := by
  intro fuel
  induction fuel with
  | zero => intro sid st _ hlt; omega
  | succ f ihf =>
    intro sid st hsome hlt hinv hpend
    by_cases hv : sid ∈ st.visited
    · have hsid_ord : sid ∈ st.order := by
        by_contra hno
        exact lt_irrefl _ (hpend sid hv hno)
      exact ⟨st, by simp [visit, hv], hinv, VisitGrows.refl st, hsid_ord⟩
    · obtain ⟨ds, hds⟩ := Option.isSome_iff_exists.mp hsome
      have hmem := lookupDeps_mem hds
      have hd_rank : ∀ d ∈ ds, rank d < rank sid :=
        fun d hd => hrank _ hmem d hd
      have hd_some : ∀ d ∈ ds, (lookupDeps g d).isSome = true :=
        fun d hd => hclosed _ hmem d hd
      have hinv1 : TopoInv g { st with visited := sid :: st.visited } := by
        refine ⟨fun x hx => ?_, hinv.2.1, hinv.2.2.1, fun x hx => ?_⟩
        · exact List.mem_cons_of_mem _ (hinv.1 x hx)
        · rcases List.mem_cons.mp hx with rfl | hx'
          · exact hsome
          · exact hinv.2.2.2 x hx'
      have hpend1 : ∀ x ∈ ({ st with visited := sid :: st.visited } :
          TopoState).visited,
          x ∉ ({ st with visited := sid :: st.visited } : TopoState).order →
          rank sid ≤ rank x := by
        intro x hx hno
        rcases List.mem_cons.mp hx with rfl | hx'
        · exact le_rfl
        · exact le_of_lt (hpend x hx' hno)
      obtain ⟨st2, hrun, hinv2, hgrow2, hall⟩ :=
        visitDeps_spec g rank f ihf (rank sid) (Nat.lt_succ_iff.mp hlt) ds
          { st with visited := sid :: st.visited } hd_rank hd_some hinv1
          hpend1
      have hsid_pend2 : sid ∈ st2.visited ∧ sid ∉ st2.order := by
        refine (hgrow2.2.2 sid).mpr ⟨by simp, fun hno => hv (hinv.1 sid hno)⟩
      refine ⟨{ st2 with order := st2.order ++ [sid] }, ?_, ?_, ?_, by simp⟩
      · simp [visit, hv, hds, hrun]
      · refine ⟨fun x hx => ?_, ?_, ?_, fun x hx => hinv2.2.2.2 x hx⟩
        · rcases List.mem_append.mp hx with hx | hx
          · exact hinv2.1 x hx
          · have : x = sid := by simpa using hx
            subst this
            exact hsid_pend2.1
        · rw [List.nodup_append]
          refine ⟨hinv2.2.1, List.nodup_singleton sid, fun x hx hx' => ?_⟩
          have hxs : x = sid := by simpa using hx'
          exact hsid_pend2.2 (hxs ▸ hx)
        · refine Ordered.push g st2.order sid hinv2.2.2.1 ?_
          intro ds' hds' d hd
          rw [hds] at hds'
          injection hds' with hdd
          subst hdd
          exact hall d hd
      · refine ⟨fun x hx => hgrow2.1 x (by simp [hx]),
          fun x hx => List.mem_append_left _ (hgrow2.2.1 x hx), fun x => ?_⟩
        constructor
        · rintro ⟨hxv, hxo⟩
          have hxo2 : x ∉ st2.order :=
            fun hc => hxo (List.mem_append_left _ hc)
          have hm := (hgrow2.2.2 x).mp ⟨hxv, hxo2⟩
          have hxne : x ≠ sid := fun he => hxo (by simp [he])
          rcases hm with ⟨hv1, ho1⟩
          rcases List.mem_cons.mp hv1 with rfl | hv1'
          · exact absurd rfl hxne
          · exact ⟨hv1', ho1⟩
        · rintro ⟨hxv, hxo⟩
          have h2 := (hgrow2.2.2 x).mpr ⟨List.mem_cons_of_mem _ hxv, hxo⟩
          refine ⟨h2.1, fun hc => ?_⟩
          rcases List.mem_append.mp hc with hc | hc
          · exact h2.2 hc
          · have : x = sid := by simpa using hc
            subst this
            exact hv hxv

/-- C3: on a workflow whose `depends_on` graph is acyclic (witnessed by a
rank function), whose dependencies all refer to declared steps, and with
fuel above every rank, `_topological_sort` succeeds and its output lists
every declared step exactly once, each step after all of its
`depends_on`. The tie-break by declaration order on the example graph is
checked in the witness. -/
theorem claim_C3 (g : StepGraph) (rank : String → Nat) (fuel : Nat)
    (hrank : Ranked g rank) (hclosed : ClosedGraph g)
    (hfuel : ∀ sid ∈ g.map Prod.fst, rank sid < fuel) :
    ∃ order, _topological_sort g fuel = some order ∧
      order.Nodup ∧
      (∀ sid, sid ∈ order ↔ sid ∈ g.map Prod.fst) ∧
      (∀ sid ∈ g.map Prod.fst, order.count sid = 1) ∧
      Ordered g order := by
  obtain ⟨st2, hrun, hinv2, hgrow2, hall⟩ :=
    visitDeps_spec g rank fuel
      (fun sid st hs hf hi hp =>
        visit_spec g rank hrank hclosed fuel sid st hs hf hi hp)
      fuel le_rfl (g.map Prod.fst) ⟨[], []⟩ hfuel
      (fun sid h => lookup_isSome_of_mem_ids h)
      ⟨by simp, List.nodup_nil, Ordered.nil g, by simp⟩
      (by simp)
  refine ⟨st2.order, ?_, hinv2.2.1, fun sid => ⟨fun h => ?_, hall sid⟩,
    fun sid h => ?_, hinv2.2.2.1⟩
  · simp [_topological_sort, hrun]
  · exact mem_ids_of_lookup (hinv2.2.2.2 sid (hinv2.1 sid h))
  · exact List.count_eq_one_of_mem hinv2.2.1 (hall sid h)

/-- Witness for C3: the example graph `{A:[], B:[A], C:[A,B]}` with ranks
`A=0, B=1, C=2`, and the concrete tie-break result `[A, B, C]`. -/
theorem claim_C3_witness :
    (∃ order,
      _topological_sort [("A", []), ("B", ["A"]), ("C", ["A", "B"])] 3 =
        some order ∧
      order.Nodup ∧
      (∀ sid, sid ∈ order ↔
        sid ∈ ([("A", []), ("B", ["A"]), ("C", ["A", "B"])] :
          StepGraph).map Prod.fst) ∧
      (∀ sid ∈ ([("A", []), ("B", ["A"]), ("C", ["A", "B"])] :
          StepGraph).map Prod.fst, order.count sid = 1) ∧
      Ordered [("A", []), ("B", ["A"]), ("C", ["A", "B"])] order) ∧
    _topological_sort [("A", []), ("B", ["A"]), ("C", ["A", "B"])] 3 =
      some ["A", "B", "C"] :=
  ⟨claim_C3 [("A", []), ("B", ["A"]), ("C", ["A", "B"])]
    (fun s => if s = "C" then 2 else if s = "B" then 1 else 0) 3
    (by unfold Ranked; decide) (by unfold ClosedGraph; decide)
    (by decide), by decide⟩


/-! ## WorkflowOrchestrator.execute_workflow
(src/workflow_orchestrator.py, lines 25-196)

`created_at`/`updated_at` wall-clock stamps and the workflow `metadata`
dict are omitted: no claim mentions them. Service calls go through the
`call` oracle, `call service action payload attempt` being the outcome
the attempt-th try of `_call_service` would observe (a raised
`asyncio.TimeoutError`, another exception — including the `ValueError`
for an unregistered service — or a result). -/

inductive WorkflowState where
  | PENDING
  | INVESTIGATING
  | VALIDATING
  | REMEDIATING
  | RESOLVED
  | FAILED
deriving DecidableEq, Repr

inductive CallErr where
  | timedOut
  | appErr (msg : String)
deriving DecidableEq, Repr

structure WorkflowStep where
  id : String
  service : String
  action : String
  depends_on : List String
  payload : List (String × String)
  timeout : ℚ := 30
  retry_policy : Option Nat := none
deriving DecidableEq, Repr

structure WorkflowInstance where
  id : String
  case_id : String
  state : WorkflowState
  steps : List WorkflowStep
  step_results : List (String × String)
  step_status : List (String × String)
deriving DecidableEq, Repr

/-- Python dict assignment `d[k] = v` on an insertion-ordered dict. -/
def dictSet (d : List (String × String)) (k v : String) :
    List (String × String) :=
  if d.any (fun p => p.1 = k) then
    d.map (fun p => if p.1 = k then (k, v) else p)
  else
    d ++ [(k, v)]

/-- Python `k in d` plus `d[k]` on an insertion-ordered dict. -/
def dictGet (d : List (String × String)) (k : String) : Option String :=
  (d.find? (fun p => p.1 = k)).map (fun p => p.2)

/-- `workflow.steps[step_id]` lookup (insertion-ordered dict keyed by
step id). -/
def lookupStep (steps : List WorkflowStep) (sid : String) :
    Option WorkflowStep :=
  steps.find? (fun s => s.id = sid)

/-- `RetryPolicy.execute` of the workflow module: `max_retries + 1` total
attempts, returning the first success, re-raising the last error. -/
def rpexec (f : Nat → Except CallErr String) :
    Nat → Nat → Except CallErr String
  | i, 0 => f i
  | i, n + 1 =>
    match f i with
    | .ok a => .ok a
    | .error _ => rpexec f (i + 1) n

/-- The payload-enrichment loop: merge `{dep_id}_result` entries for
every dependency already present in `step_results`. -/
def enrich (payload : List (String × String)) (deps : List String)
    (results : List (String × String)) : List (String × String) :=
  deps.foldl (fun acc dep =>
    match dictGet results dep with
    | some r => dictSet acc (dep ++ "_result") r
    | none => acc) payload

/-- The `for step_id in execution_order` loop of `execute_workflow`:
execute each step behind its retry policy (default `max_retries = 3`),
record result and status, abort on the first error. A missing step id
is the `KeyError` the dict subscript would raise. -/
def execSteps (steps : List WorkflowStep)
    (call : String → String → List (String × String) → Nat →
      Except CallErr String) :
    List String → List (String × String) → List (String × String) →
    Except CallErr Unit × List (String × String) × List (String × String)
  | [], results, status => (.ok (), results, status)
  | sid :: rest, results, status =>
    match lookupStep steps sid with
    | none => (.error (.appErr "KeyError"), results, status)
    | some step =>
      let enriched := enrich step.payload step.depends_on results
      match rpexec (call step.service step.action enriched) 0
          (step.retry_policy.getD 3) with
      | .ok res =>
        execSteps steps call rest (dictSet results sid res)
          (dictSet status sid "completed")
      | .error e =>
        let tag := match e with
          | .timedOut => "timeout"
          | .appErr _ => "failed"
        (.error e, results, dictSet status sid tag)

/-- `execute_workflow`: set INVESTIGATING, topologically sort, run the
steps; RESOLVED on full success, FAILED plus the re-raised error
otherwise. The fuel-exhaustion/`KeyError` path of the sort is caught by
the same `except` and also leaves FAILED. -/
def execute_workflow (wf : WorkflowInstance)
    (call : String → String → List (String × String) → Nat →
      Except CallErr String) (fuel : Nat) :
    Except CallErr Unit × WorkflowInstance :=
  let wf1 := { wf with state := WorkflowState.INVESTIGATING }
  match _topological_sort (wf1.steps.map fun s => (s.id, s.depends_on))
      fuel with
  | none =>
    (.error (.appErr "topological sort diverged"),
     { wf1 with state := WorkflowState.FAILED })
  | some order =>
    match execSteps wf1.steps call order wf1.step_results wf1.step_status
      with
    | (.ok _, results, status) =>
      (.ok (), { wf1 with
        state := WorkflowState.RESOLVED,
        step_results := results,
        step_status := status })
    | (.error e, results, status) =>
      (.error e, { wf1 with
        state := WorkflowState.FAILED,
        step_results := results,
        step_status := status })

theorem dictSet_fresh (d : List (String × String)) (k v : String)
    (h : ∀ p ∈ d, p.1 ≠ k) : dictSet d k v = d ++ [(k, v)] := by
  unfold dictSet
  rw [if_neg]
  simp only [List.any_eq_true, not_exists, not_and]
  intro p hp
  simpa using h p hp

/-- The loop specification: starting from result/status dicts whose keys
avoid the (duplicate-free) remaining order, either every step succeeds —
results gain exactly the order's keys and every status is "completed" —
or some first failing step stops the loop with only the steps before it
completed, the failing step tagged "failed"/"timeout", and the steps
after it untouched. -/
theorem execSteps_spec (steps : List WorkflowStep)
    (call : String → String → List (String × String) → Nat →
      Except CallErr String) :
    ∀ (order : List String) (results status : List (String × String)),
      (∀ sid ∈ order, (lookupStep steps sid).isSome = true) →
      order.Nodup →
      (∀ sid ∈ order, ∀ p ∈ results, p.1 ≠ sid) →
      (∀ sid ∈ order, ∀ p ∈ status, p.1 ≠ sid) →
      (∃ results' status',
        execSteps steps call order results status =
          (.ok (), results', status') ∧
        results'.map Prod.fst = results.map Prod.fst ++ order ∧
        status' = status ++ order.map (fun s => (s, "completed"))) ∨
      (∃ pre x rest e tag results' status',
        order = pre ++ x :: rest ∧
        execSteps steps call order results status =
          (.error e, results', status') ∧
        results'.map Prod.fst = results.map Prod.fst ++ pre ∧
        status' = status ++ pre.map (fun s => (s, "completed")) ++
          [(x, tag)] ∧
        ((e = .timedOut ∧ tag = "timeout") ∨
          (∃ m, e = .appErr m ∧ tag = "failed"))) := by
  intro order
  induction order with
  | nil =>
    intro results status _ _ _ _
    exact Or.inl ⟨results, status, rfl, by simp, by simp⟩
  | cons sid rest ih =>
    intro results status hsome hnd hfr hfs
    obtain ⟨step, hstep⟩ :=
      Option.isSome_iff_exists.mp (hsome sid (by simp))
    have hfr_sid : ∀ p ∈ results, p.1 ≠ sid := hfr sid (by simp)
    have hfs_sid : ∀ p ∈ status, p.1 ≠ sid := hfs sid (by simp)
    cases hcall : rpexec
        (call step.service step.action
          (enrich step.payload step.depends_on results)) 0
        (step.retry_policy.getD 3) with
    | ok res =>
      have hres2 : dictSet results sid res = results ++ [(sid, res)] :=
        dictSet_fresh results sid res hfr_sid
      have hsts2 : dictSet status sid "completed" =
          status ++ [(sid, "completed")] :=
        dictSet_fresh status sid "completed" hfs_sid
      have hsid_rest : sid ∉ rest := (List.nodup_cons.mp hnd).1
      have hfr' : ∀ s ∈ rest, ∀ p ∈ results ++ [(sid, res)], p.1 ≠ s := by
        intro s hs p hp
        rcases List.mem_append.mp hp with hp | hp
        · exact hfr s (by simp [hs]) p hp
        · have hpe : p = (sid, res) := by simpa using hp
          subst hpe
          intro hc
          have hc' : sid = s := hc
          exact hsid_rest (hc' ▸ hs)
      have hfs' : ∀ s ∈ rest, ∀ p ∈ status ++ [(sid, "completed")],
          p.1 ≠ s := by
        intro s hs p hp
        rcases List.mem_append.mp hp with hp | hp
        · exact hfs s (by simp [hs]) p hp
        · have hpe : p = (sid, "completed") := by simpa using hp
          subst hpe
          intro hc
          have hc' : sid = s := hc
          exact hsid_rest (hc' ▸ hs)
      rcases ih (results ++ [(sid, res)]) (status ++ [(sid, "completed")])
          (fun s hs => hsome s (by simp [hs]))
          (List.nodup_cons.mp hnd).2 hfr' hfs' with
        ⟨results', status', hrun, hkeys, hst⟩ | 
        ⟨pre, x, rest', e, tag, results', status', hdec, hrun, hkeys, hst,
          htag⟩
      · refine Or.inl ⟨results', status', ?_, ?_, ?_⟩
        · simp only [execSteps, hstep, hcall]
          rw [hres2, hsts2]
          exact hrun
        · rw [hkeys]
          simp
        · rw [hst]
          simp
      · refine Or.inr ⟨sid :: pre, x, rest', e, tag, results', status',
          by simp [hdec], ?_, ?_, ?_, htag⟩
        · simp only [execSteps, hstep, hcall]
          rw [hres2, hsts2]
          exact hrun
        · rw [hkeys]
          simp
        · rw [hst]
          simp
    | error e =>
      cases e with
      | timedOut =>
        refine Or.inr ⟨[], sid, rest, .timedOut, "timeout", results,
          dictSet status sid "timeout", by simp, ?_, by simp, ?_,
          Or.inl ⟨rfl, rfl⟩⟩
        · simp only [execSteps, hstep, hcall]
        · rw [dictSet_fresh status sid _ hfs_sid]
          simp
      | appErr m =>
        refine Or.inr ⟨[], sid, rest, .appErr m, "failed", results,
          dictSet status sid "failed", by simp, ?_, by simp, ?_,
          Or.inr ⟨m, rfl, rfl⟩⟩
        · simp only [execSteps, hstep, hcall]
        · rw [dictSet_fresh status sid _ hfs_sid]
          simp

/-- C4: for a workflow with empty result/status dicts whose step graph
sorts to `order` (each order entry a declared step, no duplicates),
`execute_workflow` either resolves — state RESOLVED, every step
"completed", results keyed exactly by `order` — or the first failing
step aborts the loop: the error is propagated to the caller, the state
is FAILED, and the partial `step_results`/`step_status` hold exactly
the steps that ran (the completed prefix, plus the failing step tagged
"failed" or "timeout"); no later step is attempted. -/
theorem claim_C4 (wf : WorkflowInstance)
    (call : String → String → List (String × String) → Nat →
      Except CallErr String) (fuel : Nat) (order : List String)
    (hsort : _topological_sort (wf.steps.map fun s => (s.id, s.depends_on))
      fuel = some order)
    (hsteps : ∀ sid ∈ order, (lookupStep wf.steps sid).isSome = true)
    (hnd : order.Nodup)
    (hr0 : wf.step_results = []) (hs0 : wf.step_status = []) :
    (∃ wf', execute_workflow wf call fuel = (.ok (), wf') ∧
      wf'.state = WorkflowState.RESOLVED ∧
      wf'.step_results.map Prod.fst = order ∧
      wf'.step_status = order.map (fun s => (s, "completed"))) ∨
    (∃ pre x rest e tag wf',
      order = pre ++ x :: rest ∧
      execute_workflow wf call fuel = (.error e, wf') ∧
      wf'.state = WorkflowState.FAILED ∧
      wf'.step_results.map Prod.fst = pre ∧
      wf'.step_status = pre.map (fun s => (s, "completed")) ++ [(x, tag)] ∧
      ((e = .timedOut ∧ tag = "timeout") ∨
        (∃ m, e = .appErr m ∧ tag = "failed"))) := by
  have hspec := execSteps_spec wf.steps call order [] []
    hsteps hnd (by simp) (by simp)
  rcases hspec with
    ⟨results', status', hrun, hkeys, hst⟩ |
    ⟨pre, x, rest, e, tag, results', status', hdec, hrun, hkeys, hst, htag⟩
  · refine Or.inl ⟨{ wf with
        state := WorkflowState.RESOLVED,
        step_results := results',
        step_status := status' }, ?_, rfl, ?_, ?_⟩
    · unfold execute_workflow
      simp only [hsort]
      rw [hr0, hs0, hrun]
    · simpa using hkeys
    · simpa using hst
  · refine Or.inr ⟨pre, x, rest, e, tag, { wf with
        state := WorkflowState.FAILED,
        step_results := results',
        step_status := status' }, hdec, ?_, rfl, ?_, ?_, htag⟩
    · unfold execute_workflow
      simp only [hsort]
      rw [hr0, hs0, hrun]
    · simpa using hkeys
    · simpa using hst


/-- The spec's end-to-end scenario: three chained steps where the service
call behind `step2` always errors. -/
def c4steps : List WorkflowStep :=
  [{ id := "step1", service := "anti-corruption-orchestrator",
     action := "investigate", depends_on := [], payload := [] },
   { id := "step2", service := "spam-detection", action := "analyze",
     depends_on := ["step1"], payload := [] },
   { id := "step3", service := "compliance-validator",
     action := "validate", depends_on := ["step1", "step2"],
     payload := [] }]

def c4wf : WorkflowInstance :=
  { id := "wf1", case_id := "case-123", state := WorkflowState.PENDING,
    steps := c4steps, step_results := [], step_status := [] }

def c4call : String → String → List (String × String) → Nat →
    Except CallErr String
  | "spam-detection", _, _, _ => .error (.appErr "boom")
  | _, _, _, _ => .ok "ok"

/-- Witness for C4: on the scenario workflow the theorem applies, and the
concrete run computes order `[step1, step2, step3]`, completes `step1`,
fails `step2`, never attempts `step3`, ends FAILED with `step_results`
holding only `step1`, and propagates the error. -/
theorem claim_C4_witness :
    ((∃ wf', execute_workflow c4wf c4call 4 = (.ok (), wf') ∧
      wf'.state = WorkflowState.RESOLVED ∧
      wf'.step_results.map Prod.fst = ["step1", "step2", "step3"] ∧
      wf'.step_status =
        (["step1", "step2", "step3"].map fun s => (s, "completed"))) ∨
    (∃ pre x rest e tag wf',
      ["step1", "step2", "step3"] = pre ++ x :: rest ∧
      execute_workflow c4wf c4call 4 = (.error e, wf') ∧
      wf'.state = WorkflowState.FAILED ∧
      wf'.step_results.map Prod.fst = pre ∧
      wf'.step_status =
        (pre.map fun s => (s, "completed")) ++ [(x, tag)] ∧
      ((e = .timedOut ∧ tag = "timeout") ∨
        (∃ m, e = .appErr m ∧ tag = "failed")))) ∧
    execute_workflow c4wf c4call 4 =
      (.error (.appErr "boom"),
        { c4wf with
          state := WorkflowState.FAILED,
          step_results := [("step1", "ok")],
          step_status := [("step1", "completed"), ("step2", "failed")] }) :=
  ⟨claim_C4 c4wf c4call 4 ["step1", "step2", "step3"] rfl (by decide)
    (by decide) rfl rfl, rfl⟩


/-! ## TaskQueue (src/task_queue.py)

The Redis store becomes explicit state: the task hash, one immediate
list and one scheduled sorted-set per priority, the processing list and
the dead-letter list. `uuid4` ids are fresh numbers from `nextId`;
`datetime.utcnow()` is the explicit `now : Nat` (Unix seconds) so that
the enqueue/backoff comparisons keep their meaning. `queue_name` (a
constant key prefix) is dropped. Redis semantics used: `lpush` adds at
the head, `rpop` removes at the tail, `lrem 0` removes all occurrences,
`zadd` inserts or updates the member's score, `zrangebyscore 0 now
LIMIT 0 1` returns the due member least in (score, member) order. -/

inductive TaskPriority where
  | CRITICAL
  | HIGH
  | NORMAL
  | LOW
deriving DecidableEq, Repr

/-- `TaskPriority.value`; `dequeue` scans priorities by increasing
value. -/
def TaskPriority.value : TaskPriority → Nat
  | .CRITICAL => 1
  | .HIGH => 2
  | .NORMAL => 3
  | .LOW => 4

inductive TaskStatus where
  | PENDING
  | PROCESSING
  | COMPLETED
  | FAILED
  | RETRYING
  | DEAD_LETTERED
deriving DecidableEq, Repr

structure Task where
  task_id : Nat
  task_type : String
  payload : String
  priority : TaskPriority
  status : TaskStatus
  retry_count : Nat
  max_retries : Nat
  created_at : Nat
  scheduled_at : Option Nat := none
  started_at : Option Nat := none
  completed_at : Option Nat := none
  error_message : Option String := none
deriving DecidableEq, Repr

structure QueueState where
  tasks : List (Nat × Task) := []
  qCritical : List Nat := []
  qHigh : List Nat := []
  qNormal : List Nat := []
  qLow : List Nat := []
  sCritical : List (Nat × Nat) := []
  sHigh : List (Nat × Nat) := []
  sNormal : List (Nat × Nat) := []
  sLow : List (Nat × Nat) := []
  processing : List Nat := []
  dlq : List Nat := []
  nextId : Nat := 0
deriving DecidableEq, Repr

/-- `HGET`: first entry under the key. -/
def hget (h : List (Nat × Task)) (k : Nat) : Option Task :=
  (h.find? (fun p => p.1 = k)).map (fun p => p.2)

/-- `HSET`: replace the entries under the key, or append a new entry. -/
def hset (h : List (Nat × Task)) (k : Nat) (v : Task) :
    List (Nat × Task) :=
  if h.any (fun p => p.1 = k) then
    h.map (fun p => if p.1 = k then (k, v) else p)
  else
    h ++ [(k, v)]

/-- `ZADD`: update the member's score, or append the member. -/
def zadd (s : List (Nat × Nat)) (k score : Nat) : List (Nat × Nat) :=
  if s.any (fun p => p.1 = k) then
    s.map (fun p => if p.1 = k then (k, score) else p)
  else
    s ++ [(k, score)]

/-- `ZREM`. -/
def zrem (s : List (Nat × Nat)) (k : Nat) : List (Nat × Nat) :=
  s.filter (fun p => p.1 ≠ k)

/-- `ZRANGEBYSCORE key 0 now LIMIT 0 1`: the due member least in
(score, member) order. -/
def zdue (s : List (Nat × Nat)) (now : Nat) : Option Nat :=
  match s.filter (fun p => p.2 ≤ now) with
  | [] => none
  | p :: ps =>
    some ((ps.foldl (fun b q =>
      if q.2 < b.2 ∨ (q.2 = b.2 ∧ q.1 < b.1) then q else b) p).1)

/-- `RPOP`: the tail element and the remaining list. -/
def rpop (l : List Nat) : Option (Nat × List Nat) :=
  match l.getLast? with
  | none => none
  | some x => some (x, l.dropLast)

def getQ (st : QueueState) : TaskPriority → List Nat
  | .CRITICAL => st.qCritical
  | .HIGH => st.qHigh
  | .NORMAL => st.qNormal
  | .LOW => st.qLow

def setQ (st : QueueState) (p : TaskPriority) (l : List Nat) :
    QueueState :=
  match p with
  | .CRITICAL => { st with qCritical := l }
  | .HIGH => { st with qHigh := l }
  | .NORMAL => { st with qNormal := l }
  | .LOW => { st with qLow := l }

def getS (st : QueueState) : TaskPriority → List (Nat × Nat)
  | .CRITICAL => st.sCritical
  | .HIGH => st.sHigh
  | .NORMAL => st.sNormal
  | .LOW => st.sLow

def setS (st : QueueState) (p : TaskPriority) (s : List (Nat × Nat)) :
    QueueState :=
  match p with
  | .CRITICAL => { st with sCritical := s }
  | .HIGH => { st with sHigh := s }
  | .NORMAL => { st with sNormal := s }
  | .LOW => { st with sLow := s }

/-- `TaskQueue.enqueue` (lines 98-142): create the task, store it, and
place its id into the priority's scheduled set when `scheduled_at` lies
strictly in the future, else `lpush` it onto the immediate list. -/
def enqueue (st : QueueState) (task_type payload : String)
    (priority : TaskPriority) (scheduled_at : Option Nat)
    (max_retries : Nat) (now : Nat) : Task × QueueState :=
  let task : Task := { task_id := st.nextId,
                       task_type := task_type,
                       payload := payload,
                       priority := priority,
                       status := .PENDING,
                       retry_count := 0,
                       max_retries := max_retries,
                       created_at := now,
                       scheduled_at := scheduled_at }
  let st1 := { st with tasks := hset st.tasks task.task_id task,
                       nextId := st.nextId + 1 }
  match scheduled_at with
  | some sched =>
    if now < sched then
      (task, setS st1 priority (zadd (getS st1 priority) task.task_id
        sched))
    else
      (task, setQ st1 priority (task.task_id :: getQ st1 priority))
  | none => (task, setQ st1 priority (task.task_id :: getQ st1 priority))

/-- One priority pass of `dequeue`: promote the first due scheduled id,
then `rpop`; a popped id whose task record is missing is silently
dropped (the Python `if task_data:` has no else branch). -/
def promote (st : QueueState) (p : TaskPriority) (now : Nat) :
    QueueState :=
  match zdue (getS st p) now with
  | some tid =>
    let st' := setS st p (zrem (getS st p) tid)
    setQ st' p (tid :: getQ st' p)
  | none => st

def dequeueStep (st : QueueState) (p : TaskPriority) (now : Nat) :
    Option Task × QueueState :=
  let st1 := promote st p now
  match rpop (getQ st1 p) with
  | none => (none, st1)
  | some (tid, rest) =>
    let st2 := setQ st1 p rest
    match hget st2.tasks tid with
    | none => (none, st2)
    | some t =>
      let t' := { t with status := TaskStatus.PROCESSING,
                         started_at := some now }
      (some t', { st2 with tasks := hset st2.tasks t'.task_id t',
                           processing := t'.task_id :: st2.processing })

def dequeueGo (st : QueueState) (now : Nat) :
    List TaskPriority → Option Task × QueueState
  | [] => (none, st)
  | p :: ps =>
    match dequeueStep st p now with
    | (some t, st') => (some t, st')
    | (none, st') => dequeueGo st' now ps

/-- `TaskQueue.dequeue` (lines 144-184): scan CRITICAL to LOW. -/
def dequeue (st : QueueState) (now : Nat) : Option Task × QueueState :=
  dequeueGo st now [.CRITICAL, .HIGH, .NORMAL, .LOW]

/-- `TaskQueue.complete` (lines 186-209): mark COMPLETED, stamp
`completed_at`, reset `retry_count`, `lrem` from processing. The
`result` argument of the source is accepted and ignored there too. -/
def complete (st : QueueState) (task_id : Nat) (now : Nat) : QueueState :=
  match hget st.tasks task_id with
  | none => st
  | some t =>
    let t' := { t with status := TaskStatus.COMPLETED,
                       completed_at := some now, retry_count := 0 }
    { st with tasks := hset st.tasks t'.task_id t',
              processing := st.processing.filter (fun x => x ≠ task_id) }

/-- `TaskQueue.fail` (lines 211-255): increment `retry_count`; while the
new count is still below `max_retries`, reschedule into the scheduled
set at `now + min(2^retry_count, 3600)` with status RETRYING; otherwise
DEAD_LETTERED onto the dead-letter list. -/
def fail (st : QueueState) (task_id : Nat) (error_message : String)
    (now : Nat) : QueueState :=
  match hget st.tasks task_id with
  | none => st
  | some t =>
    let t1 := { t with retry_count := t.retry_count + 1,
                       error_message := some error_message }
    let st1 := { st with
      processing := st.processing.filter (fun x => x ≠ task_id) }
    if t1.retry_count < t1.max_retries then
      let retry_time := now + min (2 ^ t1.retry_count) 3600
      let t2 := { t1 with status := TaskStatus.RETRYING,
                          scheduled_at := some retry_time }
      let st2 := { st1 with tasks := hset st1.tasks t2.task_id t2 }
      setS st2 t2.priority (zadd (getS st2 t2.priority) t2.task_id
        retry_time)
    else
      let t2 := { t1 with status := TaskStatus.DEAD_LETTERED }
      { st1 with tasks := hset st1.tasks t2.task_id t2,
                 dlq := task_id :: st1.dlq }

/-- `TaskQueue.get_stats` (lines 304-320), as the dict's numeric
entries. -/
def get_stats (st : QueueState) : List (String × Nat) :=
  [("total_queued", st.qCritical.length + st.qHigh.length +
      st.qNormal.length + st.qLow.length),
   ("critical", st.qCritical.length),
   ("high", st.qHigh.length),
   ("normal", st.qNormal.length),
   ("low", st.qLow.length),
   ("processing", st.processing.length),
   ("dead_lettered", st.dlq.length),
   ("total_tasks", st.tasks.length)]


theorem setQ_tasks (st : QueueState) (p : TaskPriority) (l : List Nat) :
    (setQ st p l).tasks = st.tasks := by cases p <;> rfl

theorem setQ_processing (st : QueueState) (p : TaskPriority)
    (l : List Nat) : (setQ st p l).processing = st.processing := by
  cases p <;> rfl

theorem setQ_dlq (st : QueueState) (p : TaskPriority) (l : List Nat) :
    (setQ st p l).dlq = st.dlq := by cases p <;> rfl

theorem setQ_nextId (st : QueueState) (p : TaskPriority) (l : List Nat) :
    (setQ st p l).nextId = st.nextId := by cases p <;> rfl

theorem setS_tasks (st : QueueState) (p : TaskPriority)
    (z : List (Nat × Nat)) : (setS st p z).tasks = st.tasks := by
  cases p <;> rfl

theorem setS_processing (st : QueueState) (p : TaskPriority)
    (z : List (Nat × Nat)) : (setS st p z).processing = st.processing := by
  cases p <;> rfl

theorem setS_dlq (st : QueueState) (p : TaskPriority)
    (z : List (Nat × Nat)) : (setS st p z).dlq = st.dlq := by
  cases p <;> rfl

theorem setS_nextId (st : QueueState) (p : TaskPriority)
    (z : List (Nat × Nat)) : (setS st p z).nextId = st.nextId := by
  cases p <;> rfl

theorem getQ_setQ_self (st : QueueState) (p : TaskPriority)
    (l : List Nat) : getQ (setQ st p l) p = l := by cases p <;> rfl

theorem getQ_setQ_ne (st : QueueState) (p q : TaskPriority) (l : List Nat)
    (h : q ≠ p) : getQ (setQ st p l) q = getQ st q := by
  cases p <;> cases q <;> first | rfl | exact absurd rfl h

theorem getQ_setS (st : QueueState) (p q : TaskPriority)
    (z : List (Nat × Nat)) : getQ (setS st p z) q = getQ st q := by
  cases p <;> cases q <;> rfl

theorem getS_setQ (st : QueueState) (p q : TaskPriority) (l : List Nat) :
    getS (setQ st p l) q = getS st q := by cases p <;> cases q <;> rfl

theorem getS_setS_self (st : QueueState) (p : TaskPriority)
    (z : List (Nat × Nat)) : getS (setS st p z) p = z := by
  cases p <;> rfl

theorem getS_setS_ne (st : QueueState) (p q : TaskPriority)
    (z : List (Nat × Nat)) (h : q ≠ p) :
    getS (setS st p z) q = getS st q := by
  cases p <;> cases q <;> first | rfl | exact absurd rfl h

theorem hget_map_replace (h : List (Nat × Task)) (k : Nat) (v : Task)
    (hin : ∃ p ∈ h, p.1 = k) :
    hget (h.map (fun p => if p.1 = k then (k, v) else p)) k = some v := by
  induction h with
  | nil =>
    rcases hin with ⟨p, hp, _⟩
    simp at hp
  | cons p h ih =>
    by_cases hp : p.1 = k
    · simp [hget, hp]
    · rcases hin with ⟨q, hq, hqk⟩
      rcases List.mem_cons.mp hq with rfl | hq'
      · exact absurd hqk hp
      · have := ih ⟨q, hq', hqk⟩
        simpa [hget, hp] using this

theorem hget_append_single (h : List (Nat × Task)) (k : Nat) (v : Task)
    (habs : ∀ p ∈ h, p.1 ≠ k) : hget (h ++ [(k, v)]) k = some v := by
  induction h with
  | nil => simp [hget]
  | cons p h ih =>
    have hp : p.1 ≠ k := habs p (by simp)
    have := ih (fun q hq => habs q (by simp [hq]))
    simpa [hget, hp] using this

/-- `HGET` after `HSET` at the same key yields the new value. -/
theorem hget_hset_self (h : List (Nat × Task)) (k : Nat) (v : Task) :
    hget (hset h k v) k = some v := by
  unfold hset
  split
  · next hin =>
    refine hget_map_replace h k v ?_
    rcases List.any_eq_true.mp hin with ⟨q, hq, hqk⟩
    exact ⟨q, hq, by simpa using hqk⟩
  · next hout =>
    refine hget_append_single h k v ?_
    intro p hp hpk
    exact hout (List.any_eq_true.mpr ⟨p, hp, by simpa using hpk⟩)

theorem hget_cons (p : Nat × Task) (h : List (Nat × Task)) (k : Nat) :
    hget (p :: h) k = if p.1 = k then some p.2 else hget h k := by
  unfold hget
  by_cases hp : p.1 = k
  · rw [List.find?_cons_of_pos _ (by simpa using hp), if_pos hp]
    rfl
  · rw [List.find?_cons_of_neg _ (by simpa using hp), if_neg hp]

theorem hget_map_replace_ne (h : List (Nat × Task)) (k : Nat) (v : Task)
    (k' : Nat) (hne : k' ≠ k) :
    hget (h.map (fun p => if p.1 = k then (k, v) else p)) k' =
      hget h k' := by
  induction h with
  | nil => rfl
  | cons p h ih =>
    rw [List.map_cons, hget_cons, hget_cons]
    by_cases hp : p.1 = k
    · have hk' : ¬ ((k, v).1 = k') := fun e => hne e.symm
      have hp' : ¬ (p.1 = k') := fun e => hne (by rw [← e, hp])
      rw [if_pos hp, if_neg hk', if_neg hp']
      exact ih
    · rw [if_neg hp]
      by_cases hp' : p.1 = k'
      · rw [if_pos hp', if_pos hp']
      · rw [if_neg hp', if_neg hp']
        exact ih

theorem hget_append_single_ne (h : List (Nat × Task)) (k : Nat) (v : Task)
    (k' : Nat) (hne : k' ≠ k) : hget (h ++ [(k, v)]) k' = hget h k' := by
  induction h with
  | nil =>
    rw [List.nil_append, hget_cons]
    exact if_neg (fun e => hne e.symm)
  | cons p h ih =>
    rw [List.cons_append, hget_cons, hget_cons]
    by_cases hp' : p.1 = k'
    · rw [if_pos hp', if_pos hp']
    · rw [if_neg hp', if_neg hp']
      exact ih

/-- `HGET` after `HSET` at another key is unchanged. -/
theorem hget_hset_ne (h : List (Nat × Task)) (k : Nat) (v : Task)
    (k' : Nat) (hne : k' ≠ k) : hget (hset h k v) k' = hget h k' := by
  unfold hset
  split
  · exact hget_map_replace_ne h k v k' hne
  · exact hget_append_single_ne h k v k' hne

theorem rpop_concat (l : List Nat) (x : Nat) :
    rpop (l ++ [x]) = some (x, l) := by
  simp [rpop, List.getLast?_concat]

theorem dequeueGo_skip (st : QueueState) (p : TaskPriority)
    (ps : List TaskPriority) (now : Nat)
    (h : dequeueStep st p now = (none, st)) :
    dequeueGo st now (p :: ps) = dequeueGo st now ps := by
  simp [dequeueGo, h]

theorem dequeueGo_hit (st : QueueState) (p : TaskPriority)
    (ps : List TaskPriority) (now : Nat) (r : Task) (st' : QueueState)
    (h : dequeueStep st p now = (some r, st')) :
    dequeueGo st now (p :: ps) = (some r, st') := by
  simp [dequeueGo, h]

/-- A priority with no due scheduled item and an empty immediate list is
passed over without changing the state. -/
theorem dequeueStep_skip (st : QueueState) (p : TaskPriority) (now : Nat)
    (h1 : zdue (getS st p) now = none) (h2 : getQ st p = []) :
    dequeueStep st p now = (none, st) := by
  simp [dequeueStep, promote, h1, h2, rpop]

/-- With no due scheduled item, `dequeue`'s pass over a priority pops the
tail of its immediate list and marks that task PROCESSING. -/
theorem dequeueStep_pop (st : QueueState) (p : TaskPriority) (now : Nat)
    (l : List Nat) (x : Nat) (t : Task)
    (h1 : zdue (getS st p) now = none)
    (h2 : getQ st p = l ++ [x])
    (h3 : hget st.tasks x = some t) :
    dequeueStep st p now =
      (some { t with status := TaskStatus.PROCESSING,
                     started_at := some now },
       { setQ st p l with
         tasks := hset st.tasks t.task_id
           { t with status := TaskStatus.PROCESSING,
                    started_at := some now },
         processing := t.task_id :: st.processing }) := by
  simp only [dequeueStep, promote, h1, h2, rpop_concat, setQ_tasks,
    setQ_processing, h3]

/-- Counterexample state for C5: two immediate NORMAL tasks enqueued into
an empty queue, first id 0 then id 1. -/
def c5state : QueueState :=
  (enqueue (enqueue { } "t" "p1" .NORMAL none 3 0).2 "t" "p2" .NORMAL
    none 3 0).2

/-- C5 counterexample: the queue is FIFO within a priority, not LIFO —
`lpush` feeds the head and `rpop` drains the tail, so `dequeue` returns
the FIRST-enqueued task (id 0), not the most recently enqueued (id 1)
as the claim states. -/
theorem claim_C5_counterexample :
    (dequeue c5state 0).1.map Task.task_id = some 0 ∧
    ¬ ((dequeue c5state 0).1.map Task.task_id = some 1) := by
  constructor
  · decide
  · decide

/-- C5 amended: within a single priority level, `enqueue` of an
immediately-runnable task pushes its id onto the head of the priority's
list, and `dequeue` (with no due scheduled items and no work at more
urgent priorities) pops from the tail — so of every pair of immediate
tasks, the LEAST recently enqueued is delivered first: FIFO, not the
stack/LIFO discipline the spec describes. -/
theorem claim_C5_amended :
    (∀ (st : QueueState) (tt pl : String) (p : TaskPriority)
       (sa : Option Nat) (mr now : Nat),
      (∀ sched, sa = some sched → sched ≤ now) →
      getQ (enqueue st tt pl p sa mr now).2 p = st.nextId :: getQ st p) ∧
    (∀ (st : QueueState) (p : TaskPriority) (now : Nat) (l : List Nat)
       (x : Nat) (t : Task),
      (∀ q : TaskPriority, q.value < p.value →
        getQ st q = [] ∧ zdue (getS st q) now = none) →
      zdue (getS st p) now = none →
      getQ st p = l ++ [x] →
      hget st.tasks x = some t →
      (dequeue st now).1 =
        some { t with status := TaskStatus.PROCESSING,
                      started_at := some now } ∧
      getQ (dequeue st now).2 p = l) := by
  constructor
  · intro st tt pl p sa mr now hsa
    cases sa with
    | none => cases p <;> simp [enqueue, getQ, setQ]
    | some sched =>
      have hle : ¬ now < sched := Nat.not_lt.mpr (hsa sched rfl)
      cases p <;> simp [enqueue, getQ, setQ, hle]
  · intro st p now l x t hq h1 h2 h3
    have hpop := dequeueStep_pop st p now l x t h1 h2 h3
    cases p with
    | CRITICAL =>
      have hrun : dequeue st now =
          (some { t with status := TaskStatus.PROCESSING,
                         started_at := some now },
           { setQ st .CRITICAL l with
             tasks := hset st.tasks t.task_id
               { t with status := TaskStatus.PROCESSING,
                        started_at := some now },
             processing := t.task_id :: st.processing }) := by
        unfold dequeue
        exact dequeueGo_hit st _ _ now _ _ hpop
      rw [hrun]
      exact ⟨rfl, by simp [getQ, setQ]⟩
    | HIGH =>
      have hC := hq .CRITICAL (by decide)
      have hrun : dequeue st now =
          (some { t with status := TaskStatus.PROCESSING,
                         started_at := some now },
           { setQ st .HIGH l with
             tasks := hset st.tasks t.task_id
               { t with status := TaskStatus.PROCESSING,
                        started_at := some now },
             processing := t.task_id :: st.processing }) := by
        unfold dequeue
        rw [dequeueGo_skip st _ _ now (dequeueStep_skip st _ now hC.2 hC.1)]
        exact dequeueGo_hit st _ _ now _ _ hpop
      rw [hrun]
      exact ⟨rfl, by simp [getQ, setQ]⟩
    | NORMAL =>
      have hC := hq .CRITICAL (by decide)
      have hH := hq .HIGH (by decide)
      have hrun : dequeue st now =
          (some { t with status := TaskStatus.PROCESSING,
                         started_at := some now },
           { setQ st .NORMAL l with
             tasks := hset st.tasks t.task_id
               { t with status := TaskStatus.PROCESSING,
                        started_at := some now },
             processing := t.task_id :: st.processing }) := by
        unfold dequeue
        rw [dequeueGo_skip st _ _ now (dequeueStep_skip st _ now hC.2 hC.1)]
        rw [dequeueGo_skip st _ _ now (dequeueStep_skip st _ now hH.2 hH.1)]
        exact dequeueGo_hit st _ _ now _ _ hpop
      rw [hrun]
      exact ⟨rfl, by simp [getQ, setQ]⟩
    | LOW =>
      have hC := hq .CRITICAL (by decide)
      have hH := hq .HIGH (by decide)
      have hN := hq .NORMAL (by decide)
      have hrun : dequeue st now =
          (some { t with status := TaskStatus.PROCESSING,
                         started_at := some now },
           { setQ st .LOW l with
             tasks := hset st.tasks t.task_id
               { t with status := TaskStatus.PROCESSING,
                        started_at := some now },
             processing := t.task_id :: st.processing }) := by
        unfold dequeue
        rw [dequeueGo_skip st _ _ now (dequeueStep_skip st _ now hC.2 hC.1)]
        rw [dequeueGo_skip st _ _ now (dequeueStep_skip st _ now hH.2 hH.1)]
        rw [dequeueGo_skip st _ _ now (dequeueStep_skip st _ now hN.2 hN.1)]
        exact dequeueGo_hit st _ _ now _ _ hpop
      rw [hrun]
      exact ⟨rfl, by simp [getQ, setQ]⟩


/-- Witness for C5 amended: a fresh enqueue conses id 0 onto the NORMAL
list; on the two-task state the dequeue pops the first-enqueued task. -/
theorem claim_C5_amended_witness :
    getQ (enqueue { } "t" "p" .NORMAL none 3 0).2 .NORMAL = [0] ∧
    ((dequeue c5state 0).1 =
      some { task_id := 0, task_type := "t", payload := "p1",
             priority := .NORMAL, status := .PROCESSING,
             retry_count := 0, max_retries := 3, created_at := 0,
             started_at := some 0 } ∧
     getQ (dequeue c5state 0).2 .NORMAL = [1]) :=
  ⟨claim_C5_amended.1 { } "t" "p" .NORMAL none 3 0
    (fun sched h => by cases h),
   claim_C5_amended.2 c5state .NORMAL 0 [1] 0
    { task_id := 0, task_type := "t", payload := "p1",
      priority := .NORMAL, status := .PENDING, retry_count := 0,
      max_retries := 3, created_at := 0 }
    (by intro q hq; revert hq; cases q <;> decide) (by decide)
    (by decide) (by decide)⟩

/-- The C1 scenario: `{type: notify, priority: HIGH, max_retries: 2}`
enqueued at time 0, delivered and failed twice. -/
def c1s0 : QueueState := (enqueue { } "notify" "d" .HIGH none 2 0).2

def c1s1 : QueueState := (dequeue c1s0 0).2

def c1s2 : QueueState := fail c1s1 0 "e1" 10

def c1s3 : Option Task × QueueState := dequeue c1s2 100

def c1s4 : QueueState := fail c1s3.2 0 "e2" 200

/-- C1 counterexample: the `max_retries = 2` task survives the FIRST
`fail` (status RETRYING, rescheduled) and is delivered a second time,
but the SECOND `fail` dead-letters it (`retry_count < max_retries` is
checked after the increment), leaving `dead_lettered` count 1 and no
further delivery — the task is delivered `max_retries` times, not
`max_retries + 1`, and cannot be completed after two failures. -/
theorem claim_C1_counterexample :
    (hget c1s2.tasks 0).map Task.status = some TaskStatus.RETRYING ∧
    c1s3.1.map Task.task_id = some 0 ∧
    (hget c1s4.tasks 0).map Task.status =
      some TaskStatus.DEAD_LETTERED ∧
    c1s4.dlq.length = 1 ∧
    (dequeue c1s4 10000).1 = none ∧
    ¬ ((hget c1s4.tasks 0).map Task.status = some TaskStatus.RETRYING) :=
  ⟨by decide, by decide, by decide, by decide, by decide, by decide⟩

/-- The corrected end-to-end scenario: the same task shape but with
`max_retries = 3` survives two consecutive fails with increasing delay
and can still be completed. -/
def c1b0 : QueueState := (enqueue { } "notify" "d" .HIGH none 3 0).2

def c1b1 : QueueState := (dequeue c1b0 0).2

def c1b2 : QueueState := fail c1b1 0 "e1" 10

def c1b3 : QueueState := (dequeue c1b2 100).2

def c1b4 : QueueState := fail c1b3 0 "e2" 200

def c1b5 : QueueState := (dequeue c1b4 300).2

def c1b6 : QueueState := complete c1b5 0 400

/-- C1 amended: each `fail` whose incremented `retry_count` is still
below `max_retries` sets RETRYING and reschedules at
`now + min(2^retry_count, 3600)`; the fail that brings `retry_count` up
to `max_retries` dead-letters instead — so a task is delivered
`max_retries` times in total, a `max_retries = 2` task dies on its
second fail, and the scenario task needs `max_retries = 3` to survive
two consecutive fails (delays 2s then 4s) and then complete with
`dead_lettered` 0 and `retry_count` reset to 0. -/
theorem claim_C1_amended :
    (∀ (st : QueueState) (tid : Nat) (t : Task) (msg : String)
       (now : Nat),
      hget st.tasks tid = some t → t.task_id = tid →
      ((t.retry_count + 1 < t.max_retries →
        hget (fail st tid msg now).tasks tid = some { t with
          retry_count := t.retry_count + 1,
          error_message := some msg,
          status := TaskStatus.RETRYING,
          scheduled_at :=
            some (now + min (2 ^ (t.retry_count + 1)) 3600) } ∧
        (fail st tid msg now).dlq = st.dlq) ∧
       (t.max_retries ≤ t.retry_count + 1 →
        hget (fail st tid msg now).tasks tid = some { t with
          retry_count := t.retry_count + 1,
          error_message := some msg,
          status := TaskStatus.DEAD_LETTERED } ∧
        (fail st tid msg now).dlq = tid :: st.dlq))) ∧
    ((hget c1b2.tasks 0).map Task.status = some TaskStatus.RETRYING ∧
     (hget c1b2.tasks 0).map Task.scheduled_at = some (some 12) ∧
     (hget c1b4.tasks 0).map Task.status = some TaskStatus.RETRYING ∧
     (hget c1b4.tasks 0).map Task.scheduled_at = some (some 204) ∧
     (dequeue c1b4 300).1.map Task.task_id = some 0 ∧
     (hget c1b6.tasks 0).map Task.status = some TaskStatus.COMPLETED ∧
     (hget c1b6.tasks 0).map Task.retry_count = some 0 ∧
     ("dead_lettered", 0) ∈ get_stats c1b6) := by
  constructor
  · intro st tid t msg now hget_t hid
    constructor
    · intro hlt
      simp only [fail, hget_t]
      rw [if_pos hlt]
      refine ⟨?_, by rw [setS_dlq]⟩
      rw [setS_tasks]
      simp only [hid]
      exact hget_hset_self _ tid _
    · intro hge
      simp only [fail, hget_t]
      rw [if_neg (by omega)]
      refine ⟨?_, rfl⟩
      simp only [hid]
      exact hget_hset_self _ tid _
  · refine ⟨by decide, by decide, by decide, by decide, by decide,
      by decide, by decide, by decide⟩

/-- Witness for C1 amended: the general fail dichotomy applied to the
`max_retries = 3` task just after its first delivery. -/
theorem claim_C1_amended_witness :
    ((0 + 1 < 3 →
      hget (fail c1b1 0 "e1" 10).tasks 0 = some
        { task_id := 0, task_type := "notify", payload := "d",
          priority := .HIGH, status := TaskStatus.RETRYING,
          retry_count := 1, max_retries := 3, created_at := 0,
          scheduled_at := some (10 + min (2 ^ 1) 3600),
          started_at := some 0, error_message := some "e1" } ∧
      (fail c1b1 0 "e1" 10).dlq = c1b1.dlq) ∧
     (3 ≤ 0 + 1 →
      hget (fail c1b1 0 "e1" 10).tasks 0 = some
        { task_id := 0, task_type := "notify", payload := "d",
          priority := .HIGH, status := TaskStatus.DEAD_LETTERED,
          retry_count := 1, max_retries := 3, created_at := 0,
          started_at := some 0, error_message := some "e1" } ∧
      (fail c1b1 0 "e1" 10).dlq = 0 :: c1b1.dlq)) :=
  claim_C1_amended.1 c1b1 0
    { task_id := 0, task_type := "notify", payload := "d",
      priority := .HIGH, status := TaskStatus.PROCESSING,
      retry_count := 0, max_retries := 3, created_at := 0,
      started_at := some 0 }
    "e1" 10 (by decide) rfl

/-- The C9 boundary run: a `max_retries = 0` task fails once. -/
def c9s0 : QueueState := (enqueue { } "t" "d" .NORMAL none 0 0).2

def c9s1 : QueueState := (dequeue c9s0 0).2

def c9s2 : QueueState := fail c9s1 0 "e" 5

/-- C9 counterexample: with `max_retries = 0` the single `fail` call
dead-letters the task with `retry_count = 1 ≠ 0 = max_retries`, so the
claimed invariant "once dead-lettered, retry_count equals max_retries"
fails on the code. -/
theorem claim_C9_counterexample :
    (hget c9s2.tasks 0).map Task.status =
      some TaskStatus.DEAD_LETTERED ∧
    (hget c9s2.tasks 0).map Task.retry_count = some 1 ∧
    (hget c9s2.tasks 0).map Task.max_retries = some 0 ∧
    ¬ ((hget c9s2.tasks 0).map Task.retry_count =
       (hget c9s2.tasks 0).map Task.max_retries) :=
  ⟨by decide, by decide, by decide, by decide⟩


/-! ### The operation language and invariant for C9

A caller-visible history is a list of queue operations. The worker
discipline the amended claim needs is captured by `wfOp`: `complete`
and `fail` are only invoked on a task whose stored status is
PROCESSING (the status only `dequeue` assigns), and every retry budget
is at least 1. -/

inductive QOp where
  | enq (task_type payload : String) (priority : TaskPriority)
        (scheduled_at : Option Nat) (max_retries : Nat) (now : Nat)
  | deq (now : Nat)
  | comp (task_id : Nat) (now : Nat)
  | failq (task_id : Nat) (msg : String) (now : Nat)

def applyOp (st : QueueState) : QOp → QueueState
  | .enq tt pl p sa mr now => (enqueue st tt pl p sa mr now).2
  | .deq now => (dequeue st now).2
  | .comp tid now => complete st tid now
  | .failq tid msg now => fail st tid msg now

def runOps (st : QueueState) : List QOp → QueueState
  | [] => st
  | op :: ops => runOps (applyOp st op) ops

def wfOp (st : QueueState) : QOp → Bool
  | .enq _ _ _ _ mr _ => decide (1 ≤ mr)
  | .deq _ => true
  | .comp tid _ =>
    match hget st.tasks tid with
    | some t => decide (t.status = TaskStatus.PROCESSING)
    | none => false
  | .failq tid _ _ =>
    match hget st.tasks tid with
    | some t => decide (t.status = TaskStatus.PROCESSING)
    | none => false

def wfSeq : QueueState → List QOp → Bool
  | _, [] => true
  | st, op :: ops => wfOp st op && wfSeq (applyOp st op) ops

/-- How often an id sits in the immediate lists and scheduled sets. -/
def qcount (st : QueueState) (tid : Nat) : Nat :=
  st.qCritical.count tid + st.qHigh.count tid + st.qNormal.count tid +
  st.qLow.count tid +
  (st.sCritical.map Prod.fst).count tid +
  (st.sHigh.map Prod.fst).count tid +
  (st.sNormal.map Prod.fst).count tid +
  (st.sLow.map Prod.fst).count tid

/-- The per-task status/counter relation of the amended C9. -/
def TaskOk (t : Task) : Prop :=
  1 ≤ t.max_retries ∧
  ((t.status = TaskStatus.PENDING ∨ t.status = TaskStatus.PROCESSING ∨
    t.status = TaskStatus.RETRYING) →
    t.retry_count < t.max_retries) ∧
  (t.status = TaskStatus.COMPLETED → t.retry_count = 0) ∧
  (t.status = TaskStatus.DEAD_LETTERED →
    t.retry_count = t.max_retries) ∧
  t.status ≠ TaskStatus.FAILED

/-- The queue-wide invariant: stored tasks are keyed by their own id,
drawn from the id counter, and status-consistent; every id occurs at
most once across the immediate lists and scheduled sets; and a queued
id always maps to a PENDING or RETRYING task. -/
def QInv (st : QueueState) : Prop :=
  (∀ e ∈ st.tasks, e.2.task_id = e.1 ∧ e.1 < st.nextId ∧ TaskOk e.2) ∧
  (∀ tid, qcount st tid ≤ 1) ∧
  (∀ tid, 1 ≤ qcount st tid → ∃ t, hget st.tasks tid = some t ∧
    (t.status = TaskStatus.PENDING ∨ t.status = TaskStatus.RETRYING))

/-- The dead-lettered tasks of `st` survive untouched into `st'`. -/
def DLpres (st st' : QueueState) : Prop :=
  ∀ tid t, hget st.tasks tid = some t →
    t.status = TaskStatus.DEAD_LETTERED → hget st'.tasks tid = some t

theorem DLpres_refl (st : QueueState) : DLpres st st := fun _ _ h _ => h

theorem DLpres_trans {a b c : QueueState} (h1 : DLpres a b)
    (h2 : DLpres b c) : DLpres a c :=
  fun tid t h hdl => h2 tid t (h1 tid t h hdl) hdl

theorem hget_mem {h : List (Nat × Task)} {k : Nat} {t : Task}
    (hh : hget h k = some t) : (k, t) ∈ h := by
  unfold hget at hh
  cases hf : h.find? (fun p => p.1 = k) with
  | none => rw [hf] at hh; simp at hh
  | some p =>
    rw [hf] at hh
    simp only [Option.map_some', Option.some.injEq] at hh
    have hp := List.mem_of_find?_eq_some hf
    have hps : p.1 = k := by simpa using List.find?_some hf
    have : p = (k, t) := by
      cases p
      simp only [Prod.mk.injEq]
      exact ⟨hps, hh⟩
    rwa [← this]

theorem qcount_setQ (st : QueueState) (p : TaskPriority) (l : List Nat)
    (x : Nat) :
    qcount (setQ st p l) x + (getQ st p).count x =
      qcount st x + l.count x := by
  cases p <;> simp [qcount, getQ, setQ] <;> omega

theorem qcount_setS (st : QueueState) (p : TaskPriority)
    (z : List (Nat × Nat)) (x : Nat) :
    qcount (setS st p z) x + ((getS st p).map Prod.fst).count x =
      qcount st x + (z.map Prod.fst).count x := by
  cases p <;> simp [qcount, getS, setS] <;> omega

theorem getQ_count_le (st : QueueState) (p : TaskPriority) (x : Nat) :
    (getQ st p).count x ≤ qcount st x := by
  cases p <;> simp [qcount, getQ] <;> omega

theorem getS_count_le (st : QueueState) (p : TaskPriority) (x : Nat) :
    ((getS st p).map Prod.fst).count x ≤ qcount st x := by
  cases p <;> simp [qcount, getS] <;> omega

theorem mem_hset (h : List (Nat × Task)) (k : Nat) (v : Task) :
    ∀ e ∈ hset h k v, e = (k, v) ∨ e ∈ h := by
  unfold hset
  split
  · intro e he
    obtain ⟨a, ha, hae⟩ := List.mem_map.mp he
    by_cases hak : a.1 = k
    · rw [if_pos hak] at hae
      exact Or.inl hae.symm
    · rw [if_neg hak] at hae
      exact Or.inr (hae ▸ ha)
  · intro e he
    rcases List.mem_append.mp he with he | he
    · exact Or.inr he
    · exact Or.inl (by simpa using he)

theorem zadd_absent (s : List (Nat × Nat)) (k sc : Nat)
    (h : ∀ e ∈ s, e.1 ≠ k) : zadd s k sc = s ++ [(k, sc)] := by
  unfold zadd
  rw [if_neg]
  simp only [List.any_eq_true, not_exists, not_and]
  intro e he
  simpa using h e he

theorem zrem_count (s : List (Nat × Nat)) (k x : Nat) :
    ((zrem s k).map Prod.fst).count x =
      if x = k then 0 else (s.map Prod.fst).count x := by
  induction s with
  | nil => by_cases hx : x = k <;> simp [zrem, hx]
  | cons e s ih =>
    by_cases he : e.1 = k
    · have h1 : zrem (e :: s) k = zrem s k := by
        simp [zrem, List.filter_cons, he]
      rw [h1, ih]
      by_cases hx : x = k
      · rw [if_pos hx, if_pos hx]
      · have hex : ¬ (e.1 = x) := fun hc => hx (hc.symm.trans he)
        rw [if_neg hx, if_neg hx, List.map_cons, List.count_cons]
        simp [hex]
    · have h1 : zrem (e :: s) k = e :: zrem s k := by
        simp [zrem, List.filter_cons, he]
      rw [h1, List.map_cons, List.count_cons, ih]
      by_cases hx : x = k
      · have hex : ¬ (e.1 = x) := fun hc => he (hc.trans hx)
        rw [if_pos hx, if_pos hx]
        simp [hex]
      · rw [if_neg hx, if_neg hx, List.map_cons, List.count_cons]

theorem pickMin_mem (ps : List (Nat × Nat)) :
    ∀ p : Nat × Nat,
      ps.foldl (fun b q =>
        if q.2 < b.2 ∨ (q.2 = b.2 ∧ q.1 < b.1) then q else b) p ∈
        p :: ps := by
  induction ps with
  | nil => intro p; simp
  | cons q ps ih =>
    intro p
    simp only [List.foldl_cons]
    have h := ih (if q.2 < p.2 ∨ (q.2 = p.2 ∧ q.1 < p.1) then q else p)
    rcases List.mem_cons.mp h with he | he
    · rw [he]
      split
      · simp
      · simp
    · exact List.mem_cons_of_mem _ (List.mem_cons_of_mem _ he)

theorem zdue_mem (s : List (Nat × Nat)) (now tid : Nat)
    (h : zdue s now = some tid) : tid ∈ s.map Prod.fst := by
  unfold zdue at h
  cases hf : s.filter (fun p => p.2 ≤ now) with
  | nil => rw [hf] at h; cases h
  | cons p ps =>
    rw [hf] at h
    injection h with h
    have hmem := pickMin_mem ps p
    have hfil : (ps.foldl (fun b q =>
        if q.2 < b.2 ∨ (q.2 = b.2 ∧ q.1 < b.1) then q else b) p) ∈
        s.filter (fun p => p.2 ≤ now) := by
      rw [hf]; exact hmem
    have hs := List.mem_of_mem_filter hfil
    exact h ▸ List.mem_map.mpr ⟨_, hs, rfl⟩

theorem rpop_eq (l : List Nat) (x : Nat) (rest : List Nat)
    (h : rpop l = some (x, rest)) : l = rest ++ [x] := by
  unfold rpop at h
  cases hl : l.getLast? with
  | none => rw [hl] at h; cases h
  | some y =>
    rw [hl] at h
    injection h with h
    obtain ⟨h1, h2⟩ : y = x ∧ l.dropLast = rest :=
      ⟨congrArg Prod.fst h, congrArg Prod.snd h⟩
    subst h2
    have hne : l ≠ [] := by
      intro hnil
      rw [hnil] at hl
      cases hl
    have hy : l.getLast hne = y := by
      have h3 := List.getLast?_eq_getLast l hne
      rw [hl] at h3
      exact (Option.some.inj h3).symm
    rw [← h1, ← hy]
    exact (List.dropLast_append_getLast hne).symm


theorem qcount_zero_of_fresh (st : QueueState) (hinv : QInv st) :
    qcount st st.nextId = 0 := by
  by_contra h0
  obtain ⟨t, ht, _⟩ := hinv.2.2 st.nextId (by omega)
  have hm := hget_mem ht
  have hlt : st.nextId < st.nextId := (hinv.1 _ hm).2.1
  omega

theorem cond1_hset (st : QueueState) (k : Nat) (v : Task) (n : Nat)
    (hinv : QInv st) (hvk : v.task_id = k) (hkn : k < n)
    (hn : st.nextId ≤ n) (hok : TaskOk v) :
    ∀ e ∈ hset st.tasks k v, e.2.task_id = e.1 ∧ e.1 < n ∧ TaskOk e.2 := by
  intro e he
  rcases mem_hset _ _ _ e he with rfl | he'
  · exact ⟨hvk, hkn, hok⟩
  · obtain ⟨h1, h2, h3⟩ := hinv.1 e he'
    exact ⟨h1, lt_of_lt_of_le h2 hn, h3⟩

/-- The store/counter part of `enqueue` before the queue placement. -/
def enqState (st : QueueState) (task : Task) : QueueState :=
  { st with tasks := hset st.tasks st.nextId task,
            nextId := st.nextId + 1 }

theorem getQ_enqState (st : QueueState) (task : Task) (p : TaskPriority) :
    getQ (enqState st task) p = getQ st p := by cases p <;> rfl

theorem getS_enqState (st : QueueState) (task : Task) (p : TaskPriority) :
    getS (enqState st task) p = getS st p := by cases p <;> rfl

theorem getS_tp (st : QueueState) (h : List (Nat × Task))
    (pl : List Nat) (p : TaskPriority) :
    getS { st with tasks := h, processing := pl } p = getS st p := by
  cases p <;> rfl

theorem getQ_tp (st : QueueState) (h : List (Nat × Task))
    (pl : List Nat) (p : TaskPriority) :
    getQ { st with tasks := h, processing := pl } p = getQ st p := by
  cases p <;> rfl

/-- Invariant preservation for an `enqueue` landing on the immediate
list. -/
theorem enq_imm_inv (st : QueueState) (task : Task) (p : TaskPriority)
    (hinv : QInv st) (htid : task.task_id = st.nextId)
    (hok : TaskOk task) (hpend : task.status = TaskStatus.PENDING) :
    QInv (setQ (enqState st task) p
      (st.nextId :: getQ (enqState st task) p)) ∧
    DLpres st (setQ (enqState st task) p
      (st.nextId :: getQ (enqState st task) p)) := by
  have hfresh := qcount_zero_of_fresh st hinv
  have hq1 : ∀ x, qcount (enqState st task) x = qcount st x :=
    fun _ => rfl
  have hcnt : ∀ x, qcount (setQ (enqState st task) p
      (st.nextId :: getQ (enqState st task) p)) x =
      qcount st x + (if x = st.nextId then 1 else 0) := by
    intro x
    have h := qcount_setQ (enqState st task) p
      (st.nextId :: getQ (enqState st task) p) x
    rw [List.count_cons] at h
    simp only [beq_iff_eq] at h
    have hq := hq1 x
    by_cases hx : x = st.nextId
    · subst hx
      simp only [if_pos rfl] at h ⊢
      omega
    · have hx' : ¬ (st.nextId = x) := fun e => hx e.symm
      rw [if_neg hx'] at h
      rw [if_neg hx]
      omega
  refine ⟨⟨?_, ?_, ?_⟩, ?_⟩
  · intro e he
    rw [setQ_tasks] at he
    rw [setQ_nextId]
    exact cond1_hset st st.nextId task (st.nextId + 1) hinv htid
      (Nat.lt_succ_self _) (Nat.le_succ _) hok e he
  · intro x
    rw [hcnt x]
    by_cases hx : x = st.nextId
    · rw [if_pos hx, hx, hfresh]
    · rw [if_neg hx]
      have := hinv.2.1 x
      omega
  · intro x hx1
    rw [hcnt x] at hx1
    rw [setQ_tasks]
    by_cases hx : x = st.nextId
    · subst hx
      exact ⟨task, hget_hset_self _ _ _, Or.inl hpend⟩
    · rw [if_neg hx] at hx1
      obtain ⟨t, ht, hs⟩ := hinv.2.2 x (by omega)
      refine ⟨t, ?_, hs⟩
      show hget (hset st.tasks st.nextId task) x = some t
      rw [hget_hset_ne _ _ _ _ hx]
      exact ht
  · intro tid t ht hdl
    rw [setQ_tasks]
    have hm := hget_mem ht
    have hlt : tid < st.nextId := (hinv.1 _ hm).2.1
    show hget (hset st.tasks st.nextId task) tid = some t
    rw [hget_hset_ne _ _ _ _ (by omega)]
    exact ht

/-- Invariant preservation for an `enqueue` landing on the scheduled
set. -/
theorem enq_sched_inv (st : QueueState) (task : Task) (p : TaskPriority)
    (sched : Nat) (hinv : QInv st) (htid : task.task_id = st.nextId)
    (hok : TaskOk task) (hpend : task.status = TaskStatus.PENDING) :
    QInv (setS (enqState st task) p
      (zadd (getS (enqState st task) p) st.nextId sched)) ∧
    DLpres st (setS (enqState st task) p
      (zadd (getS (enqState st task) p) st.nextId sched)) := by
  have hfresh := qcount_zero_of_fresh st hinv
  have hgs := getS_enqState st task p
  have habs : ∀ e ∈ getS st p, e.1 ≠ st.nextId := by
    intro e he hc
    have hmem : st.nextId ∈ (getS st p).map Prod.fst :=
      List.mem_map.mpr ⟨e, he, hc⟩
    have h2 := getS_count_le st p st.nextId
    have h1 : ((getS st p).map Prod.fst).count st.nextId = 0 := by omega
    exact (List.count_eq_zero.mp h1) hmem
  have hz : zadd (getS (enqState st task) p) st.nextId sched =
      getS st p ++ [(st.nextId, sched)] := by
    rw [hgs]
    exact zadd_absent _ _ _ habs
  have hq1 : ∀ x, qcount (enqState st task) x = qcount st x :=
    fun _ => rfl
  have hcnt : ∀ x, qcount (setS (enqState st task) p
      (zadd (getS (enqState st task) p) st.nextId sched)) x =
      qcount st x + (if x = st.nextId then 1 else 0) := by
    intro x
    rw [hz]
    have h := qcount_setS (enqState st task) p
      (getS st p ++ [(st.nextId, sched)]) x
    rw [hgs, List.map_append, List.count_append] at h
    simp only [List.map_cons, List.map_nil, List.count_cons,
      List.count_nil] at h
    simp only [beq_iff_eq] at h
    have hq := hq1 x
    by_cases hx : x = st.nextId
    · subst hx
      simp only [if_pos rfl] at h ⊢
      omega
    · have hx' : ¬ (st.nextId = x) := fun e => hx e.symm
      rw [if_neg hx'] at h
      rw [if_neg hx]
      omega
  refine ⟨⟨?_, ?_, ?_⟩, ?_⟩
  · intro e he
    rw [setS_tasks] at he
    rw [setS_nextId]
    exact cond1_hset st st.nextId task (st.nextId + 1) hinv htid
      (Nat.lt_succ_self _) (Nat.le_succ _) hok e he
  · intro x
    rw [hcnt x]
    by_cases hx : x = st.nextId
    · rw [if_pos hx, hx, hfresh]
    · rw [if_neg hx]
      have := hinv.2.1 x
      omega
  · intro x hx1
    rw [hcnt x] at hx1
    rw [setS_tasks]
    by_cases hx : x = st.nextId
    · subst hx
      exact ⟨task, hget_hset_self _ _ _, Or.inl hpend⟩
    · rw [if_neg hx] at hx1
      obtain ⟨t, ht, hs⟩ := hinv.2.2 x (by omega)
      refine ⟨t, ?_, hs⟩
      show hget (hset st.tasks st.nextId task) x = some t
      rw [hget_hset_ne _ _ _ _ hx]
      exact ht
  · intro tid t ht hdl
    rw [setS_tasks]
    have hm := hget_mem ht
    have hlt : tid < st.nextId := (hinv.1 _ hm).2.1
    show hget (hset st.tasks st.nextId task) tid = some t
    rw [hget_hset_ne _ _ _ _ (by omega)]
    exact ht

/-- Invariant preservation for `enqueue`. -/
theorem enqueue_inv (st : QueueState) (tt pl : String) (p : TaskPriority)
    (sa : Option Nat) (mr now : Nat) (hinv : QInv st) (hmr : 1 ≤ mr) :
    QInv (enqueue st tt pl p sa mr now).2 ∧
    DLpres st (enqueue st tt pl p sa mr now).2 := by
  have hok : ∀ sa' : Option Nat, TaskOk
      { task_id := st.nextId, task_type := tt, payload := pl,
        priority := p, status := TaskStatus.PENDING, retry_count := 0,
        max_retries := mr, created_at := now, scheduled_at := sa' } :=
    fun sa' => ⟨hmr, fun _ => hmr, by simp, by simp, by simp⟩
  cases sa with
  | none => exact enq_imm_inv st _ p hinv rfl (hok none) rfl
  | some sched =>
    by_cases hf : now < sched
    · have h := enq_sched_inv st _ p sched hinv rfl (hok (some sched)) rfl
      simp only [enqueue]
      rw [if_pos hf]
      exact h
    · have h := enq_imm_inv st _ p hinv rfl (hok (some sched)) rfl
      simp only [enqueue]
      rw [if_neg hf]
      exact h


/-- `promote` preserves the invariant and leaves the task hash and id
counter untouched. -/
theorem promote_inv (st : QueueState) (p : TaskPriority) (now : Nat)
    (hinv : QInv st) :
    QInv (promote st p now) ∧ (promote st p now).tasks = st.tasks ∧
    (promote st p now).nextId = st.nextId := by
  unfold promote
  cases hz : zdue (getS st p) now with
  | none => exact ⟨hinv, rfl, rfl⟩
  | some tid =>
    have htid_mem := zdue_mem _ _ _ hz
    have hc1 : 1 ≤ ((getS st p).map Prod.fst).count tid := by
      by_contra h0
      have h00 : ((getS st p).map Prod.fst).count tid = 0 := by omega
      exact (List.count_eq_zero.mp h00) htid_mem
    have hqle := hinv.2.1 tid
    have hsle := getS_count_le st p tid
    have hgqA : getQ (setS st p (zrem (getS st p) tid)) p = getQ st p :=
      getQ_setS st p p _
    have hA := fun x => qcount_setS st p (zrem (getS st p) tid) x
    have hB := fun x => qcount_setQ (setS st p (zrem (getS st p) tid)) p
      (tid :: getQ (setS st p (zrem (getS st p) tid)) p) x
    have hfin : ∀ x, qcount (setQ (setS st p (zrem (getS st p) tid)) p
        (tid :: getQ (setS st p (zrem (getS st p) tid)) p)) x =
        if x = tid then 1 else qcount st x := by
      intro x
      have hAx := hA x
      have hBx := hB x
      rw [zrem_count] at hAx
      rw [List.count_cons] at hBx
      simp only [beq_iff_eq] at hBx
      by_cases hx : x = tid
      · subst hx
        rw [if_pos rfl] at hAx ⊢
        rw [if_pos rfl] at hBx
        omega
      · have hx' : ¬ (tid = x) := fun e => hx e.symm
        rw [if_neg hx] at hAx ⊢
        rw [if_neg hx'] at hBx
        omega
    have htasks : (setQ (setS st p (zrem (getS st p) tid)) p
        (tid :: getQ (setS st p (zrem (getS st p) tid)) p)).tasks =
        st.tasks := by
      rw [setQ_tasks, setS_tasks]
    have hnid : (setQ (setS st p (zrem (getS st p) tid)) p
        (tid :: getQ (setS st p (zrem (getS st p) tid)) p)).nextId =
        st.nextId := by
      rw [setQ_nextId, setS_nextId]
    refine ⟨⟨?_, ?_, ?_⟩, htasks, hnid⟩
    · intro e he
      rw [htasks] at he
      rw [hnid]
      exact hinv.1 e he
    · intro x
      rw [hfin x]
      by_cases hx : x = tid
      · rw [if_pos hx]
      · rw [if_neg hx]
        exact hinv.2.1 x
    · intro x hx1
      rw [hfin x] at hx1
      rw [htasks]
      by_cases hx : x = tid
      · subst hx
        exact hinv.2.2 x (by omega)
      · rw [if_neg hx] at hx1
        exact hinv.2.2 x hx1

/-- One `dequeue` priority pass preserves the invariant and the
dead-lettered tasks. -/
theorem dequeueStep_inv (st : QueueState) (p : TaskPriority) (now : Nat)
    (hinv : QInv st) :
    QInv (dequeueStep st p now).2 ∧ DLpres st (dequeueStep st p now).2 := by
  obtain ⟨hinv1, htasks1, hnid1⟩ := promote_inv st p now hinv
  cases hr : rpop (getQ (promote st p now) p) with
  | none =>
    have : dequeueStep st p now = (none, promote st p now) := by
      simp only [dequeueStep]
      rw [hr]
    rw [this]
    refine ⟨hinv1, ?_⟩
    intro tid t ht hdl
    rw [htasks1]
    exact ht
  | some pair =>
    obtain ⟨tid, rest⟩ := pair
    have heq : getQ (promote st p now) p = rest ++ [tid] :=
      rpop_eq _ _ _ hr
    have hcnt1 : 1 ≤ qcount (promote st p now) tid := by
      have h1 : tid ∈ getQ (promote st p now) p := by
        rw [heq]
        simp
      have h2 : 1 ≤ (getQ (promote st p now) p).count tid := by
        by_contra h0
        have h00 : (getQ (promote st p now) p).count tid = 0 := by omega
        exact (List.count_eq_zero.mp h00) h1
      have h3 := getQ_count_le (promote st p now) p tid
      omega
    obtain ⟨t, ht, hs⟩ := hinv1.2.2 tid hcnt1
    have hm := hget_mem ht
    obtain ⟨hid0, hlt0, hok⟩ := hinv1.1 _ hm
    have hid : t.task_id = tid := hid0
    have hlt : tid < (promote st p now).nextId := hlt0
    have hrc : t.retry_count < t.max_retries := by
      rcases hs with hs | hs
      · exact hok.2.1 (Or.inl hs)
      · exact hok.2.1 (Or.inr (Or.inr hs))
    have hht : hget (setQ (promote st p now) p rest).tasks tid = some t := by
      rw [setQ_tasks]
      exact ht
    have hq2 : ∀ x, qcount (setQ (promote st p now) p rest) x +
        (if x = tid then 1 else 0) = qcount (promote st p now) x := by
      intro x
      have h := qcount_setQ (promote st p now) p rest x
      rw [heq, List.count_append, List.count_cons, List.count_nil] at h
      simp only [beq_iff_eq] at h
      by_cases hx : x = tid
      · subst hx
        rw [if_pos rfl] at h ⊢
        omega
      · have hx1 : ¬ (tid = x) := fun e => hx e.symm
        rw [if_neg hx1] at h
        rw [if_neg hx]
        omega
    have hinvQ : QInv (setQ (promote st p now) p rest) := by
      refine ⟨?_, ?_, ?_⟩
      · intro e he
        rw [setQ_tasks] at he
        rw [setQ_nextId]
        exact hinv1.1 e he
      · intro x
        have h := hq2 x
        have h2 := hinv1.2.1 x
        by_cases hx : x = tid
        · rw [if_pos hx] at h
          omega
        · rw [if_neg hx] at h
          omega
      · intro x hx1
        by_cases hxt : x = tid
        · subst hxt
          refine ⟨t, ?_, hs⟩
          rw [setQ_tasks]
          exact ht
        · have h := hq2 x
          rw [if_neg hxt] at h
          obtain ⟨t2, ht2, hs2⟩ := hinv1.2.2 x (by omega)
          refine ⟨t2, ?_, hs2⟩
          rw [setQ_tasks]
          exact ht2
    have hcz : qcount (setQ (promote st p now) p rest) tid = 0 := by
      have h := hq2 tid
      rw [if_pos rfl] at h
      have h2 := hinv1.2.1 tid
      omega
    have hokP :
        TaskOk { t with status := TaskStatus.PROCESSING, started_at := some now } := by
      refine ⟨hok.1, fun _ => hrc, ?_, ?_, ?_⟩ <;> simp
    simp only [dequeueStep, hr, hht]
    refine ⟨⟨?_, ?_, ?_⟩, ?_⟩
    · intro e he
      exact cond1_hset (setQ (promote st p now) p rest) t.task_id
        { t with status := TaskStatus.PROCESSING, started_at := some now }
        (setQ (promote st p now) p rest).nextId hinvQ rfl
        (by rw [setQ_nextId]; exact lt_of_eq_of_lt hid hlt) le_rfl hokP e he
    · intro x
      exact hinvQ.2.1 x
    · intro x hx1
      have hx2 : 1 ≤ qcount (setQ (promote st p now) p rest) x := hx1
      have hxt : x ≠ tid := by
        intro hc
        rw [hc] at hx2
        omega
      obtain ⟨t2, ht2, hs2⟩ := hinvQ.2.2 x hx2
      refine ⟨t2, ?_, hs2⟩
      show hget (hset (setQ (promote st p now) p rest).tasks t.task_id
        { t with status := TaskStatus.PROCESSING, started_at := some now }) x = some t2
      rw [hget_hset_ne _ _ _ _ (by rw [hid]; exact hxt)]
      exact ht2
    · intro tid2 t2 ht2 hdl2
      have hne : tid2 ≠ t.task_id := by
        rw [hid]
        intro hc
        rw [htasks1] at ht
        rw [hc, ht] at ht2
        injection ht2 with he2
        rw [← he2] at hdl2
        rcases hs with hs | hs <;> simp [hs] at hdl2
      show hget (hset (setQ (promote st p now) p rest).tasks t.task_id
        { t with status := TaskStatus.PROCESSING, started_at := some now }) tid2 = some t2
      rw [hget_hset_ne _ _ _ _ hne, setQ_tasks, htasks1]
      exact ht2

/-- The full priority scan preserves the invariant and the dead-lettered
tasks. -/
theorem dequeueGo_inv (now : Nat) :
    ∀ (ps : List TaskPriority) (st : QueueState), QInv st →
      QInv (dequeueGo st now ps).2 ∧ DLpres st (dequeueGo st now ps).2 := by
  intro ps
  induction ps with
  | nil => intro st h; exact ⟨h, DLpres_refl st⟩
  | cons p ps ih =>
    intro st h
    obtain ⟨h1, h2⟩ := dequeueStep_inv st p now h
    cases hd : dequeueStep st p now with
    | mk r st' =>
      rw [hd] at h1 h2
      cases r with
      | some t =>
        have : dequeueGo st now (p :: ps) = (some t, st') := by
          simp [dequeueGo, hd]
        rw [this]
        exact ⟨h1, h2⟩
      | none =>
        have : dequeueGo st now (p :: ps) = dequeueGo st' now ps := by
          simp [dequeueGo, hd]
        rw [this]
        obtain ⟨h3, h4⟩ := ih st' h1
        exact ⟨h3, DLpres_trans h2 h4⟩


/-- A stored PROCESSING task is absent from every queue and scheduled
set. -/
theorem qcz_of_processing (st : QueueState) (tid : Nat) (t : Task)
    (hinv : QInv st) (ht : hget st.tasks tid = some t)
    (hp : t.status = TaskStatus.PROCESSING) : qcount st tid = 0 := by
  by_contra h0
  obtain ⟨t2, ht2, hs2⟩ := hinv.2.2 tid (by omega)
  rw [ht] at ht2
  injection ht2 with he2
  rcases hs2 with hs2 | hs2 <;> rw [← he2, hp] at hs2 <;>
    exact TaskStatus.noConfusion hs2

/-- The task record written by `complete`. -/
def compTask (t : Task) (now : Nat) : Task :=
  { t with status := TaskStatus.COMPLETED, completed_at := some now,
           retry_count := 0 }

/-- The state written by `complete` on the stored task `t`. -/
def compState (st : QueueState) (tid : Nat) (t : Task) (now : Nat) :
    QueueState :=
  { st with tasks := hset st.tasks t.task_id (compTask t now),
            processing := st.processing.filter (fun x => x ≠ tid) }

theorem complete_eq (st : QueueState) (tid : Nat) (now : Nat) (t : Task)
    (ht : hget st.tasks tid = some t) :
    complete st tid now = compState st tid t now := by
  simp only [complete, ht]
  rfl

/-- `complete` on a PROCESSING task preserves the invariant and the
dead-lettered tasks. -/
theorem complete_inv (st : QueueState) (tid : Nat) (now : Nat) (t : Task)
    (hinv : QInv st) (ht : hget st.tasks tid = some t)
    (hp : t.status = TaskStatus.PROCESSING) :
    QInv (complete st tid now) ∧ DLpres st (complete st tid now) := by
  have hm := hget_mem ht
  obtain ⟨hid0, hlt0, hok⟩ := hinv.1 _ hm
  have hid : t.task_id = tid := hid0
  have hlt : tid < st.nextId := hlt0
  have hcz := qcz_of_processing st tid t hinv ht hp
  have hokC : TaskOk (compTask t now) :=
    ⟨hok.1, by simp [compTask], fun _ => rfl, by simp [compTask],
      by simp [compTask]⟩
  rw [complete_eq st tid now t ht]
  refine ⟨⟨?_, ?_, ?_⟩, ?_⟩
  · intro e he
    exact cond1_hset st t.task_id (compTask t now) st.nextId hinv rfl
      (lt_of_eq_of_lt hid hlt) le_rfl hokC e he
  · intro x
    exact hinv.2.1 x
  · intro x hx1
    have hx2 : 1 ≤ qcount st x := hx1
    have hxt : x ≠ tid := by
      intro hc
      rw [hc] at hx2
      omega
    obtain ⟨t2, ht2, hs2⟩ := hinv.2.2 x hx2
    refine ⟨t2, ?_, hs2⟩
    show hget (hset st.tasks t.task_id (compTask t now)) x = some t2
    rw [hget_hset_ne _ _ _ _ (by rw [hid]; exact hxt)]
    exact ht2
  · intro tid2 t2 ht2 hdl2
    have hne : tid2 ≠ t.task_id := by
      rw [hid]
      intro hc
      rw [hc, ht] at ht2
      injection ht2 with he2
      rw [← he2, hp] at hdl2
      exact TaskStatus.noConfusion hdl2
    show hget (hset st.tasks t.task_id (compTask t now)) tid2 = some t2
    rw [hget_hset_ne _ _ _ _ hne]
    exact ht2

/-- The task record written by the retry branch of `fail`. -/
def failRetryTask (t : Task) (msg : String) (now : Nat) : Task :=
  { t with retry_count := t.retry_count + 1, error_message := some msg,
           status := TaskStatus.RETRYING,
           scheduled_at := some (now + min (2 ^ (t.retry_count + 1)) 3600) }

/-- The task record written by the dead-letter branch of `fail`. -/
def failDLTask (t : Task) (msg : String) : Task :=
  { t with retry_count := t.retry_count + 1, error_message := some msg,
           status := TaskStatus.DEAD_LETTERED }

/-- The state after the retry branch of `fail` on the stored task `t`. -/
def failRetryState (st : QueueState) (tid : Nat) (t : Task) (msg : String)
    (now : Nat) : QueueState :=
  setS { st with tasks := hset st.tasks t.task_id (failRetryTask t msg now),
                 processing := st.processing.filter (fun x => x ≠ tid) }
    t.priority
    (zadd (getS { st with
        tasks := hset st.tasks t.task_id (failRetryTask t msg now),
        processing := st.processing.filter (fun x => x ≠ tid) } t.priority)
      t.task_id (now + min (2 ^ (t.retry_count + 1)) 3600))

/-- The state after the dead-letter branch of `fail`. -/
def failDLState (st : QueueState) (tid : Nat) (t : Task) (msg : String) :
    QueueState :=
  { st with tasks := hset st.tasks t.task_id (failDLTask t msg),
            processing := st.processing.filter (fun x => x ≠ tid),
            dlq := tid :: st.dlq }

theorem fail_eq_retry (st : QueueState) (tid : Nat) (msg : String)
    (now : Nat) (t : Task) (ht : hget st.tasks tid = some t)
    (hb : t.retry_count + 1 < t.max_retries) :
    fail st tid msg now = failRetryState st tid t msg now := by
  simp only [fail, ht]
  rw [if_pos hb]
  rfl

theorem fail_eq_dl (st : QueueState) (tid : Nat) (msg : String)
    (now : Nat) (t : Task) (ht : hget st.tasks tid = some t)
    (hb : ¬ t.retry_count + 1 < t.max_retries) :
    fail st tid msg now = failDLState st tid t msg := by
  simp only [fail, ht]
  rw [if_neg hb]
  rfl


/-- The retry branch of `fail` preserves the invariant and the
dead-lettered tasks. -/
theorem failRetry_inv (st : QueueState) (tid : Nat) (msg : String)
    (now : Nat) (t : Task) (hinv : QInv st)
    (ht : hget st.tasks tid = some t)
    (hp : t.status = TaskStatus.PROCESSING)
    (hb : t.retry_count + 1 < t.max_retries) :
    QInv (failRetryState st tid t msg now) ∧
      DLpres st (failRetryState st tid t msg now) := by
  have hm := hget_mem ht
  obtain ⟨hid0, hlt0, hok⟩ := hinv.1 _ hm
  have hid : t.task_id = tid := hid0
  have hlt : tid < st.nextId := hlt0
  have hcz := qcz_of_processing st tid t hinv ht hp
  have hokR : TaskOk (failRetryTask t msg now) :=
    ⟨hok.1, fun _ => hb, by simp [failRetryTask], by simp [failRetryTask],
      by simp [failRetryTask]⟩
  have hgs : getS { st with
      tasks := hset st.tasks t.task_id (failRetryTask t msg now),
      processing := st.processing.filter (fun x => x ≠ tid) } t.priority
      = getS st t.priority := getS_tp st _ _ t.priority
  have habs : ∀ e ∈ getS st t.priority, e.1 ≠ t.task_id := by
    intro e he hc
    have hmem : t.task_id ∈ (getS st t.priority).map Prod.fst :=
      List.mem_map.mpr ⟨e, he, hc⟩
    have h2 := getS_count_le st t.priority t.task_id
    rw [hid] at h2 hmem
    have h1 : ((getS st t.priority).map Prod.fst).count tid = 0 := by
      omega
    exact (List.count_eq_zero.mp h1) hmem
  have hz : zadd (getS st t.priority) t.task_id
      (now + min (2 ^ (t.retry_count + 1)) 3600) =
      getS st t.priority ++
        [(t.task_id, now + min (2 ^ (t.retry_count + 1)) 3600)] :=
    zadd_absent _ _ _ habs
  have hcnt : ∀ x, qcount (failRetryState st tid t msg now) x =
      qcount st x + (if x = t.task_id then 1 else 0) := by
    intro y
    simp only [failRetryState]
    rw [hgs, hz]
    have h := qcount_setS { st with
        tasks := hset st.tasks t.task_id (failRetryTask t msg now),
        processing := st.processing.filter (fun x => x ≠ tid) } t.priority
      (getS st t.priority ++
        [(t.task_id, now + min (2 ^ (t.retry_count + 1)) 3600)]) y
    rw [hgs, List.map_append, List.count_append] at h
    simp only [List.map_cons, List.map_nil, List.count_cons,
      List.count_nil] at h
    simp only [beq_iff_eq] at h
    have hqm : qcount { st with
        tasks := hset st.tasks t.task_id (failRetryTask t msg now),
        processing := st.processing.filter (fun x => x ≠ tid) } y =
        qcount st y := rfl
    rw [hqm] at h
    by_cases hy : y = t.task_id
    · subst hy
      simp only [if_pos rfl] at h ⊢
      omega
    · have hy2 : ¬ (t.task_id = y) := fun e => hy e.symm
      rw [if_neg hy2] at h
      rw [if_neg hy]
      omega
  refine ⟨⟨?_, ?_, ?_⟩, ?_⟩
  · intro e he
    have he2 : e ∈ hset st.tasks t.task_id (failRetryTask t msg now) := by
      simp only [failRetryState] at he
      rw [setS_tasks] at he
      exact he
    have h3 := cond1_hset st t.task_id (failRetryTask t msg now) st.nextId
      hinv rfl (lt_of_eq_of_lt hid hlt) le_rfl hokR e he2
    simp only [failRetryState]
    rw [setS_nextId]
    exact h3
  · intro x
    rw [hcnt x]
    by_cases hx : x = t.task_id
    · rw [if_pos hx, hx, hid, hcz]
    · rw [if_neg hx]
      have h2 := hinv.2.1 x
      omega
  · intro x hx1
    rw [hcnt x] at hx1
    simp only [failRetryState]
    rw [setS_tasks]
    by_cases hx : x = t.task_id
    · subst hx
      exact ⟨failRetryTask t msg now, hget_hset_self _ _ _,
        Or.inr (by simp [failRetryTask])⟩
    · rw [if_neg hx] at hx1
      obtain ⟨t2, ht2, hs2⟩ := hinv.2.2 x (by omega)
      refine ⟨t2, ?_, hs2⟩
      show hget (hset st.tasks t.task_id (failRetryTask t msg now)) x =
        some t2
      rw [hget_hset_ne _ _ _ _ hx]
      exact ht2
  · intro tid2 t2 ht2 hdl2
    have hne : tid2 ≠ t.task_id := by
      rw [hid]
      intro hc
      rw [hc, ht] at ht2
      injection ht2 with he2
      rw [← he2, hp] at hdl2
      exact TaskStatus.noConfusion hdl2
    simp only [failRetryState]
    rw [setS_tasks]
    show hget (hset st.tasks t.task_id (failRetryTask t msg now)) tid2 =
      some t2
    rw [hget_hset_ne _ _ _ _ hne]
    exact ht2

/-- The dead-letter branch of `fail` preserves the invariant and the
previously dead-lettered tasks. -/
theorem failDL_inv (st : QueueState) (tid : Nat) (msg : String)
    (t : Task) (hinv : QInv st) (ht : hget st.tasks tid = some t)
    (hp : t.status = TaskStatus.PROCESSING)
    (hb : ¬ t.retry_count + 1 < t.max_retries) :
    QInv (failDLState st tid t msg) ∧
      DLpres st (failDLState st tid t msg) := by
  have hm := hget_mem ht
  obtain ⟨hid0, hlt0, hok⟩ := hinv.1 _ hm
  have hid : t.task_id = tid := hid0
  have hlt : tid < st.nextId := hlt0
  have hcz := qcz_of_processing st tid t hinv ht hp
  have hrc : t.retry_count < t.max_retries := hok.2.1 (Or.inr (Or.inl hp))
  have heq : t.retry_count + 1 = t.max_retries := by omega
  have hokD : TaskOk (failDLTask t msg) :=
    ⟨hok.1, by simp [failDLTask], by simp [failDLTask], fun _ => heq,
      by simp [failDLTask]⟩
  refine ⟨⟨?_, ?_, ?_⟩, ?_⟩
  · intro e he
    exact cond1_hset st t.task_id (failDLTask t msg) st.nextId hinv rfl
      (lt_of_eq_of_lt hid hlt) le_rfl hokD e he
  · intro x
    exact hinv.2.1 x
  · intro x hx1
    have hx2 : 1 ≤ qcount st x := hx1
    have hxt : x ≠ tid := by
      intro hc
      rw [hc] at hx2
      omega
    obtain ⟨t2, ht2, hs2⟩ := hinv.2.2 x hx2
    refine ⟨t2, ?_, hs2⟩
    show hget (hset st.tasks t.task_id (failDLTask t msg)) x = some t2
    rw [hget_hset_ne _ _ _ _ (by rw [hid]; exact hxt)]
    exact ht2
  · intro tid2 t2 ht2 hdl2
    have hne : tid2 ≠ t.task_id := by
      rw [hid]
      intro hc
      rw [hc, ht] at ht2
      injection ht2 with he2
      rw [← he2, hp] at hdl2
      exact TaskStatus.noConfusion hdl2
    show hget (hset st.tasks t.task_id (failDLTask t msg)) tid2 = some t2
    rw [hget_hset_ne _ _ _ _ hne]
    exact ht2

/-- `fail` on a PROCESSING task preserves the invariant and the
previously dead-lettered tasks. -/
theorem fail_inv (st : QueueState) (tid : Nat) (msg : String) (now : Nat)
    (t : Task) (hinv : QInv st) (ht : hget st.tasks tid = some t)
    (hp : t.status = TaskStatus.PROCESSING) :
    QInv (fail st tid msg now) ∧ DLpres st (fail st tid msg now) := by
  by_cases hb : t.retry_count + 1 < t.max_retries
  · rw [fail_eq_retry st tid msg now t ht hb]
    exact failRetry_inv st tid msg now t hinv ht hp hb
  · rw [fail_eq_dl st tid msg now t ht hb]
    exact failDL_inv st tid msg t hinv ht hp hb


/-- A single well-formed operation preserves the invariant and the
dead-lettered tasks. -/
theorem applyOp_inv (st : QueueState) (op : QOp) (hinv : QInv st)
    (hwf : wfOp st op = true) :
    QInv (applyOp st op) ∧ DLpres st (applyOp st op) := by
  cases op with
  | enq tt pl p sa mr now =>
    have hmr : 1 ≤ mr := by simpa [wfOp] using hwf
    exact enqueue_inv st tt pl p sa mr now hinv hmr
  | deq now =>
    exact dequeueGo_inv now [.CRITICAL, .HIGH, .NORMAL, .LOW] st hinv
  | comp tid now =>
    cases hh : hget st.tasks tid with
    | none => simp [wfOp, hh] at hwf
    | some t =>
      have hp : t.status = TaskStatus.PROCESSING := by
        simpa [wfOp, hh] using hwf
      exact complete_inv st tid now t hinv hh hp
  | failq tid msg now =>
    cases hh : hget st.tasks tid with
    | none => simp [wfOp, hh] at hwf
    | some t =>
      have hp : t.status = TaskStatus.PROCESSING := by
        simpa [wfOp, hh] using hwf
      exact fail_inv st tid msg now t hinv hh hp

/-- A well-formed operation sequence preserves the invariant and the
dead-lettered tasks. -/
theorem runOps_inv (ops : List QOp) : ∀ st : QueueState, QInv st →
    wfSeq st ops = true →
    QInv (runOps st ops) ∧ DLpres st (runOps st ops) := by
  induction ops with
  | nil =>
    intro st h _
    exact ⟨h, DLpres_refl st⟩
  | cons op ops ih =>
    intro st h hwf
    simp only [wfSeq, Bool.and_eq_true] at hwf
    obtain ⟨h1, h2⟩ := applyOp_inv st op h hwf.1
    obtain ⟨h3, h4⟩ := ih (applyOp st op) h1 hwf.2
    exact ⟨h3, DLpres_trans h2 h4⟩

/-- The fresh queue satisfies the invariant. -/
theorem QInv_empty : QInv { } := by
  refine ⟨?_, ?_, ?_⟩
  · intro e he
    exact absurd he (by simp)
  · intro x
    simp [qcount]
  · intro x hx
    exact absurd hx (by simp [qcount])


/-- C9 (amended): starting from an empty queue, after any well-formed
sequence of enqueue/dequeue/complete/fail operations (enqueue with a
positive retry budget; complete and fail only on tasks the queue handed
out, i.e. stored as PROCESSING), every stored task satisfies
`retry_count ≤ max_retries` while its status is not DEAD_LETTERED, and a
DEAD_LETTERED task has `retry_count = max_retries` and its stored record
survives unchanged through any further well-formed operations. -/
theorem claim_C9_amended (ops : List QOp) (hwf : wfSeq { } ops = true)
    (tid : Nat) (t : Task)
    (ht : hget (runOps { } ops).tasks tid = some t) :
    (t.status ≠ TaskStatus.DEAD_LETTERED →
      t.retry_count ≤ t.max_retries) ∧
    (t.status = TaskStatus.DEAD_LETTERED →
      t.retry_count = t.max_retries ∧
      ∀ ops2, wfSeq (runOps { } ops) ops2 = true →
        hget (runOps (runOps { } ops) ops2).tasks tid = some t) := by
  obtain ⟨hinv, _⟩ := runOps_inv ops { } QInv_empty hwf
  have hm := hget_mem ht
  obtain ⟨_, _, hok⟩ := hinv.1 _ hm
  constructor
  · intro hnd
    cases hst : t.status with
    | PENDING => exact le_of_lt (hok.2.1 (Or.inl hst))
    | PROCESSING => exact le_of_lt (hok.2.1 (Or.inr (Or.inl hst)))
    | RETRYING => exact le_of_lt (hok.2.1 (Or.inr (Or.inr hst)))
    | COMPLETED =>
      rw [hok.2.2.1 hst]
      exact Nat.zero_le _
    | DEAD_LETTERED => exact absurd hst hnd
    | FAILED => exact absurd hst hok.2.2.2.2
  · intro hd
    refine ⟨hok.2.2.2.1 hd, ?_⟩
    intro ops2 hwf2
    obtain ⟨_, hdl⟩ := runOps_inv ops2 (runOps { } ops) hinv hwf2
    exact hdl tid t ht hd

/-- A three-operation run driving task 0 into the dead-letter queue. -/
def c9ops : List QOp :=
  [QOp.enq "t" "p" TaskPriority.NORMAL none 1 0, QOp.deq 0,
   QOp.failq 0 "e" 5]

/-- The stored record of task 0 after `c9ops`. -/
def c9task : Task :=
  { task_id := 0, task_type := "t", payload := "p",
    priority := TaskPriority.NORMAL, status := TaskStatus.DEAD_LETTERED,
    retry_count := 1, max_retries := 1, created_at := 0,
    scheduled_at := none, started_at := some 0, completed_at := none,
    error_message := some "e" }

/-- Witness for the amended C9 on the concrete run `c9ops`. -/
theorem claim_C9_amended_witness :
    wfSeq { } c9ops = true ∧
    hget (runOps { } c9ops).tasks 0 = some c9task ∧
    c9task.status = TaskStatus.DEAD_LETTERED ∧
    c9task.retry_count = c9task.max_retries :=
  ⟨by decide, by decide, by decide,
    ((claim_C9_amended c9ops (by decide) 0 c9task (by decide)).2
      (by decide)).1⟩

end Orch
